import Mathlib

/-!
Shallow embedding of `build_sgrna_library.py` (sgrna_design).

The three core stages are embedded as executable Lean functions:
  * `extract_targets`   — motif-adjacent target extraction (both strands),
  * `ascribe_specificity` / `mark_specificity_threshold` — tiered
    uniqueness scoring, with the external aligner abstracted as an
    oracle `aligns : sgrna_target → Nat → Bool`,
  * `label_targets`     — two-pointer interval-sweep region annotation.

Python dicts are embedded as association lists with overwrite-on-insert
(`dinsert`); Python's stable `list.sort` by `(start, end)` is embedded as
a stable insertion sort; the uncaught `KeyError` raised by
`per_chrom_bounds[chrom]` for an unknown chromosome is embedded as the
whole computation returning `none`.
-/

set_option linter.unusedVariables false

/-- `DNA_PAIRINGS` translation table of the source: complement a base,
leaving unknown characters (such as `'N'`) unchanged. -/
def DNA_PAIRINGS (c : Char) : Char :=
  if c = 'a' then 't' else if c = 't' then 'a'
  else if c = 'c' then 'g' else if c = 'g' then 'c'
  else if c = 'A' then 'T' else if c = 'T' then 'A'
  else if c = 'C' then 'G' else if c = 'G' then 'C'
  else c

/-- `revcomp`: translate through `DNA_PAIRINGS`, then reverse. -/
def revcomp (x : List Char) : List Char := (x.map DNA_PAIRINGS).reverse

/-- The `sgrna_target` entity (constructed with
`sgrna_target(sequence, pam, chrom, start, end, reverse)` in the source);
`specificity` starts at 0 and the three annotation fields start unset. -/
structure sgrna_target where
  sequence : List Char
  motif : List Char
  chrom : String
  start : Nat
  end_ : Nat
  reverse : Bool
  specificity : Nat := 0
  gene : Option String := none
  offset : Option Int := none
  sense_strand : Option Bool := none
deriving Repr, DecidableEq

/-- Modelled from the spec: the `sgrna_target` module is imported but not
among the sources, so its `id_str` method is modelled from the spec's
words: "a deterministic string derived from
`(sequence, motif, chrom, start, end, reverse)`", stable across runs and
independent of the mutable `specificity`/annotation fields. -/
def sgrna_target.id_str (t : sgrna_target) : String :=
  String.mk t.sequence ++ "_" ++ String.mk t.motif ++ "_" ++ t.chrom ++ "_" ++
    toString t.start ++ "_" ++ toString t.end_ ++ "_" ++
    (if t.reverse then "r" else "f")

/-- Python slice `g[a:b]` on a list of characters. -/
def pyslice (g : List Char) (a b : Nat) : List Char := (g.drop a).take (b - a)

/-- Target built from a forward-strand hit of
`(?=((.{target_len})pam))` at position `i`:
`sgrna_target(hit.group(2), hit.group(1)[-len(pam):], chrom, i, i + target_len, False)`.
(Python's `s[-0:]` is the whole string, hence the `pamLen = 0` case.) -/
def fwd_hit_target (pamLen tlen : Nat) (chrom : String) (g : List Char)
    (i : Nat) : sgrna_target :=
  let group1 := pyslice g i (i + tlen + pamLen)
  { sequence := pyslice g i (i + tlen)
    motif := if pamLen = 0 then group1 else group1.drop tlen
    chrom := chrom
    start := i
    end_ := i + tlen
    reverse := false }

/-- Target built from a reverse-strand hit of
`(?=(revcomp(pam)(.{target_len})))` at position `i`:
`sgrna_target(revcomp(hit.group(2)), revcomp(hit.group(1))[-len(pam):], chrom, i + len(pam), i + len(pam) + target_len, True)`. -/
def rev_hit_target (pamLen tlen : Nat) (chrom : String) (g : List Char)
    (i : Nat) : sgrna_target :=
  let group1 := pyslice g i (i + pamLen + tlen)
  { sequence := revcomp (pyslice g (i + pamLen) (i + pamLen + tlen))
    motif := if pamLen = 0 then revcomp group1 else (revcomp group1).drop tlen
    chrom := chrom
    start := i + pamLen
    end_ := i + pamLen + tlen
    reverse := true }

/-- The zero-width forward lookahead pattern matches at position `i`:
the genome holds `target_len + len(pam)` characters from `i`, and the
`len(pam)` characters after the window match the PAM pattern.  The PAM
regex is abstracted as its string length `pamLen` together with a
matcher `pamMatch` on length-`pamLen` character blocks (the source
assumes patterns such as `.gg` whose match length equals the pattern
length). -/
def fwd_match (pamLen tlen : Nat) (pamMatch : List Char → Bool)
    (g : List Char) (i : Nat) : Bool :=
  decide (i + tlen + pamLen ≤ g.length) &&
    pamMatch (pyslice g (i + tlen) (i + tlen + pamLen))

/-- The reverse lookahead pattern (`revcomp(pam)` then the window) matches
at position `i`: for character-class PAM patterns, a block matches
`revcomp(pam)` exactly when its reverse complement matches `pam`. -/
def rev_match (pamLen tlen : Nat) (pamMatch : List Char → Bool)
    (g : List Char) (i : Nat) : Bool :=
  decide (i + pamLen + tlen ≤ g.length) &&
    pamMatch (revcomp (pyslice g i (i + pamLen)))

/-- Forward-strand candidates of one sequence record, in scan order:
every match position whose full capture `hit.group(1)` is free of `'N'`
yields a target (`if 'N' in hit.group(1): continue`). -/
def fwd_candidates (pamLen tlen : Nat) (pamMatch : List Char → Bool)
    (chrom : String) (g : List Char) : List sgrna_target :=
  (List.range (g.length + 1)).filterMap (fun i =>
    if fwd_match pamLen tlen pamMatch g i then
      if (pyslice g i (i + tlen + pamLen)).contains 'N' then none
      else some (fwd_hit_target pamLen tlen chrom g i)
    else none)

/-- Reverse-strand candidates of one sequence record, in scan order. -/
def rev_candidates (pamLen tlen : Nat) (pamMatch : List Char → Bool)
    (chrom : String) (g : List Char) : List sgrna_target :=
  (List.range (g.length + 1)).filterMap (fun i =>
    if rev_match pamLen tlen pamMatch g i then
      if (pyslice g i (i + pamLen + tlen)).contains 'N' then none
      else some (rev_hit_target pamLen tlen chrom g i)
    else none)

/-- Python dict assignment `raw_targets[name] = t`: overwrite the value
if the key is present (keeping its position), else append. -/
def dinsert (k : String) (v : sgrna_target) (m : List (String × sgrna_target)) :
    List (String × sgrna_target) :=
  if m.any (fun p => p.1 == k) then
    m.map (fun p => if p.1 == k then (p.1, v) else p)
  else m ++ [(k, v)]

/-- Insert a batch of targets into the mapping, keyed by `id_str`. -/
def dinsert_all (ts : List sgrna_target) (m : List (String × sgrna_target)) :
    List (String × sgrna_target) :=
  ts.foldl (fun acc t => dinsert t.id_str t acc) m

/-- One sequence record of `extract_targets`: upper-case the bases, then
insert all forward-strand hits followed by all reverse-strand hits. -/
def extract_record_step (pamLen tlen : Nat) (pamMatch : List Char → Bool)
    (acc : List (String × sgrna_target)) (rec : String × List Char) :
    List (String × sgrna_target) :=
  let genome := rec.2.map Char.toUpper
  dinsert_all (rev_candidates pamLen tlen pamMatch rec.1 genome)
    (dinsert_all (fwd_candidates pamLen tlen pamMatch rec.1 genome) acc)

/-- `extract_targets`: fold every `(chrom, bases)` record into the
`raw_targets` mapping. -/
def extract_targets (records : List (String × List Char)) (pamLen tlen : Nat)
    (pamMatch : List Char → Bool) : List (String × sgrna_target) :=
  records.foldl (extract_record_step pamLen tlen pamMatch) []

/-- The fixed tolerance schedule `(39, 30, 20, 11, 1)` of
`ascribe_specificity`. -/
def tolerance_schedule : List Nat := [39, 30, 20, 11, 1]

/-- One bowtie round (`mark_specificity_threshold`) at a given threshold,
with the aligner abstracted as an oracle `aligns t threshold` telling
whether a unique alignment within the threshold was reported for the
read of target `t`.  Only the batch members (targets still at
specificity 0 — the reads actually written to the fastq file) can be
updated, and an aligned target's specificity is raised to `threshold`
when `t.specificity < threshold`. -/
def mark_one (aligns : sgrna_target → Nat → Bool) (threshold : Nat)
    (p : String × sgrna_target) : String × sgrna_target :=
  if p.2.specificity > 0 then p
  else if aligns p.2 threshold && decide (p.2.specificity < threshold) then
    (p.1, { p.2 with specificity := threshold })
  else p

/-- The whole-batch update of `mark_specificity_threshold`. -/
def mark_specificity_threshold (aligns : sgrna_target → Nat → Bool)
    (threshold : Nat) (targets : List (String × sgrna_target)) :
    List (String × sgrna_target) :=
  targets.map (mark_one aligns threshold)

/-- One iteration of the threshold loop of `ascribe_specificity`: the
bowtie round runs only if at least one read was written
(`wrote_anything`), i.e. some target still has specificity 0. -/
def ascribe_round (aligns : sgrna_target → Nat → Bool)
    (targets : List (String × sgrna_target)) (threshold : Nat) :
    List (String × sgrna_target) :=
  if targets.any (fun p => p.2.specificity == 0) then
    mark_specificity_threshold aligns threshold targets
  else targets

/-- The threshold loop of `ascribe_specificity` over a schedule. -/
def ascribe_rounds (aligns : sgrna_target → Nat → Bool) (schedule : List Nat)
    (targets : List (String × sgrna_target)) : List (String × sgrna_target) :=
  schedule.foldl (ascribe_round aligns) targets

/-- `ascribe_specificity`: run the threshold loop over `(39,30,20,11,1)`. -/
def ascribe_specificity (aligns : sgrna_target → Nat → Bool)
    (targets : List (String × sgrna_target)) : List (String × sgrna_target) :=
  ascribe_rounds aligns tolerance_schedule targets

/-- A target region `(gene, chrom, start, end, strand)`. -/
structure Region where
  gene : String
  chrom : String
  start : Nat
  end_ : Nat
  strand : Char
deriving Repr, DecidableEq

/-- The sort key comparison of `label_targets`:
`sort(key=lambda x: (x.start, x.end))`, as a boolean lexicographic `≤`. -/
def target_le (a b : sgrna_target) : Bool :=
  decide (a.start < b.start) ||
    (decide (a.start = b.start) && decide (a.end_ ≤ b.end_))

/-- Stable insertion of a later element after all `target_le`-smaller-or-
equal earlier elements. -/
def insert_sorted (t : sgrna_target) : List sgrna_target → List sgrna_target
  | [] => [t]
  | x :: xs => if target_le x t then x :: insert_sorted t xs else t :: x :: xs

/-- Python's stable `list.sort(key=lambda x: (x.start, x.end))` as a
stable insertion sort. -/
def sort_targets (l : List sgrna_target) : List sgrna_target :=
  l.foldl (fun acc t => insert_sorted t acc) []

/-- `per_chrom_sorted_targets`: the targets of one chromosome, sorted by
`(start, end)`; a chromosome with no targets yields `[]` (defaultdict). -/
def per_chrom_sorted_targets (targets : List (String × sgrna_target))
    (chrom : String) : List sgrna_target :=
  sort_targets ((targets.filter (fun p => p.2.chrom == chrom)).map Prod.snd)

/-- A bounded `while` loop advancing an index while it is in range and
the guard holds at it (`fuel` is an upper bound on the number of steps;
it is always called with `fuel = ts.length`, which suffices). -/
def advance_while (cond : sgrna_target → Bool) (ts : List sgrna_target) :
    Nat → Nat → Nat
  | i, 0 => i
  | i, fuel + 1 =>
    match ts[i]? with
    | none => i
    | some t => if cond t then advance_while cond ts (i + 1) fuel else i

/-- Guard of the `back`-advancing loop:
`target.start + 1 < gene_end` under partial overlap, else
`target.end + 1 <= gene_end`. -/
def back_condition (allow_partial_overlap : Bool) (gene_start gene_end : Nat)
    (t : sgrna_target) : Bool :=
  if allow_partial_overlap then decide (t.start + 1 < gene_end)
  else decide (t.end_ + 1 ≤ gene_end)

/-- Guard of the `front`-advancing loop:
`target.end + 1 <= gene_start` under partial overlap, else
`target.start + 1 < gene_start`. -/
def front_condition (allow_partial_overlap : Bool) (gene_start gene_end : Nat)
    (t : sgrna_target) : Bool :=
  if allow_partial_overlap then decide (t.end_ + 1 ≤ gene_start)
  else decide (t.start + 1 < gene_start)

/-- Advance the persisted `(front, back)` cursor pair for one region. -/
def update_bounds (allow_partial_overlap : Bool) (gene_start gene_end : Nat)
    (ts : List sgrna_target) (fb : Nat × Nat) : Nat × Nat :=
  (advance_while (front_condition allow_partial_overlap gene_start gene_end)
      ts fb.1 ts.length,
   advance_while (back_condition allow_partial_overlap gene_start gene_end)
      ts fb.2 ts.length)

/-- The overlap window of a region: `chrom_targets[front:back]` after
both cursors were advanced from the persisted pair `fb`. -/
def overlap_window (allow_partial_overlap : Bool) (gene_start gene_end : Nat)
    (ts : List sgrna_target) (fb : Nat × Nat) : List sgrna_target :=
  let fb' := update_bounds allow_partial_overlap gene_start gene_end ts fb
  (ts.drop fb'.1).take (fb'.2 - fb'.1)

/-- The annotated deep copy produced for one `(target, region)` pair:
`offset = gene_end - target.end` for a reverse-strand gene, else
`target.start - gene_start`; `sense_strand = (gene_strand == '-') == target.reverse`. -/
def annotate_copy (r : Region) (t : sgrna_target) : sgrna_target :=
  let reverse_strand_gene := r.strand == '-'
  { t with
    gene := some r.gene
    offset := some (if reverse_strand_gene then (r.end_ : Int) - (t.end_ : Int)
      else (t.start : Int) - (r.start : Int))
    sense_strand := some (reverse_strand_gene == t.reverse) }

/-- The mutable state of the region loop of `label_targets`. -/
structure LabelState where
  anno_targets : List sgrna_target
  found : List String
  per_chrom_bounds : List (String × (Nat × Nat))
deriving Repr, DecidableEq

/-- Python dict assignment `per_chrom_bounds[chrom] = fb` (the key is
always already present when the source reaches this line). -/
def set_bound (bounds : List (String × (Nat × Nat))) (chrom : String)
    (v : Nat × Nat) : List (String × (Nat × Nat)) :=
  bounds.map (fun p => if p.1 == chrom then (p.1, v) else p)

/-- One iteration of the region loop of `label_targets`.  The lookups
`per_chrom_bounds[chrom]` and `chrom_lens[chrom]` raise `KeyError` for a
chromosome absent from `chrom_lens` — embedded as `none`.  A region
starting at or beyond the chromosome length is skipped. -/
def process_region (allow_partial_overlap : Bool)
    (chrom_lens : List (String × Nat))
    (chrom_targets : String → List sgrna_target)
    (st : LabelState) (r : Region) : Option LabelState :=
  match List.lookup r.chrom st.per_chrom_bounds with
  | none => none
  | some fb =>
    match List.lookup r.chrom chrom_lens with
    | none => none
    | some clen =>
      if r.start ≥ clen then some st
      else
        let ts := chrom_targets r.chrom
        let fb' := update_bounds allow_partial_overlap r.start r.end_ ts fb
        let overlap := overlap_window allow_partial_overlap r.start r.end_ ts fb
        some { anno_targets := st.anno_targets ++ overlap.map (annotate_copy r)
               found := st.found ++ overlap.map sgrna_target.id_str
               per_chrom_bounds := set_bound st.per_chrom_bounds r.chrom fb' }

/-- `label_targets`: sweep the regions in input order with persisted
per-chromosome cursors, then emit one unannotated deep copy of every
target never found.  The result is `none` when the source would die with
an uncaught `KeyError` (region chromosome absent from `chrom_lens`). -/
def label_targets (targets : List (String × sgrna_target))
    (target_regions : List Region) (chrom_lens : List (String × Nat))
    (allow_partial_overlap : Bool) : Option (List sgrna_target) :=
  let chrom_targets := per_chrom_sorted_targets targets
  let init : LabelState :=
    { anno_targets := []
      found := []
      per_chrom_bounds := chrom_lens.map (fun p => (p.1, ((0 : Nat), (0 : Nat)))) }
  match target_regions.foldlM
      (process_region allow_partial_overlap chrom_lens chrom_targets) init with
  | none => none
  | some st =>
    some (st.anno_targets ++
      (targets.filter (fun p => !(st.found.contains p.1))).map Prod.snd)

/-- Specification-side definition for the refinement stated by the
scorer claims: the first tolerance of the schedule at which the aligner
reports a unique alignment for a target, or 0 when none does. -/
def spec_first_unique_tolerance (aligns : sgrna_target → Nat → Bool)
    (t : sgrna_target) : Nat :=
  (tolerance_schedule.find? (fun threshold => aligns t threshold)).getD 0

/-- A small unscored target used for concrete witnesses. -/
def exT : sgrna_target :=
  { sequence := ['A', 'C'], motif := ['T', 'G', 'G'], chrom := "chr1",
    start := 0, end_ := 2, reverse := false }

/-- An aligner oracle reporting a unique alignment only at tolerance 30. -/
def exAligns : sgrna_target → Nat → Bool := fun t threshold => threshold == 30

/-- A one-target mapping used for concrete witnesses. -/
def exTargets : List (String × sgrna_target) := [(exT.id_str, exT)]

/-- The matcher of the PAM pattern `.GG` (after upper-casing): any
character followed by two `G`s, on blocks of length 3. -/
def exPamMatch : List Char → Bool := fun s =>
  s.length == 3 && (s[1]? == some 'G') && (s[2]? == some 'G')

/-- The end-to-end example genome of the spec, `"AAAATGGAAACGG"`. -/
def exGenome : List Char :=
  ['A', 'A', 'A', 'A', 'T', 'G', 'G', 'A', 'A', 'A', 'C', 'G', 'G']

/-- A one-chromosome record list around `exGenome`. -/
def exRecords : List (String × List Char) := [("chr1", exGenome)]

/-- A genome whose only PAM-adjacent window is `'N'`-free while the
matched PAM bases contain `'N'`. -/
def c6Genome : List Char := ['A', 'A', 'A', 'A', 'N', 'G', 'G']

/-- Invariant of the region sweep: each persisted `front` cursor has only
ever been advanced past targets that ended before the start of some
already-processed region of the same chromosome (and both cursors stay
within the target list). -/
def FrontInv (cT : String → List sgrna_target) (st : LabelState)
    (seen : List Region) : Prop :=
  ∀ c fb, List.lookup c st.per_chrom_bounds = some fb →
    fb.1 ≤ (cT c).length ∧ fb.2 ≤ (cT c).length ∧
    ∀ j, j < fb.1 → ∀ t : sgrna_target, (cT c)[j]? = some t →
      ∃ r ∈ seen, r.chrom = c ∧ t.end_ + 1 ≤ r.start

/-- The target used in the off-by-one counterexample: span `[0, 5)`,
adjacent to a region starting at 5. -/
def c1T : sgrna_target :=
  { sequence := ['A'], motif := ['G'], chrom := "c", start := 0, end_ := 5,
    reverse := false }

/-- A region `[5, 10)` on the same chromosome as `c1T`. -/
def c1Region : Region :=
  { gene := "g", chrom := "c", start := 5, end_ := 10, strand := '+' }

/-- A long target `[0, 100)` masking the short one behind it. -/
def c2T1 : sgrna_target :=
  { sequence := ['A'], motif := ['G'], chrom := "c", start := 0, end_ := 100,
    reverse := false }

/-- A short target `[5, 8)` ending before the region below starts. -/
def c2T2 : sgrna_target :=
  { sequence := ['C'], motif := ['G'], chrom := "c", start := 5, end_ := 8,
    reverse := false }

/-- A region `[50, 200)` overlapping `c2T1` but not `c2T2`. -/
def c2Region : Region :=
  { gene := "g", chrom := "c", start := 50, end_ := 200, strand := '+' }

/-- A target on chromosome `"c"` used in the missing-chromosome run. -/
def c3T : sgrna_target :=
  { sequence := ['A'], motif := ['G'], chrom := "c", start := 10, end_ := 30,
    reverse := false }

/-- The offset-example target `[110, 130)` (found on the reverse strand). -/
def c7T : sgrna_target :=
  { sequence := ['A'], motif := ['G'], chrom := "c", start := 110, end_ := 130,
    reverse := true }

/-- The offset-example gene `(start=100, end=200, strand='+')`. -/
def c7RegionPlus : Region :=
  { gene := "gene", chrom := "c", start := 100, end_ := 200, strand := '+' }

/-- The offset-example gene `(start=100, end=200, strand='-')`. -/
def c7RegionMinus : Region :=
  { gene := "gene", chrom := "c", start := 100, end_ := 200, strand := '-' }

/-- A far-away target `[500, 520)` that no example region overlaps. -/
def c8T : sgrna_target :=
  { sequence := ['T'], motif := ['G'], chrom := "c", start := 500, end_ := 520,
    reverse := false }

/- ------------------------------------------------------------------ -/
/- Theorems.                                                          -/
/- ------------------------------------------------------------------ -/

theorem mark_one_id_of_pos (aligns : sgrna_target → Nat → Bool)
    (threshold : Nat) (p : String × sgrna_target)
    (h : 0 < p.2.specificity) : mark_one aligns threshold p = p := by
  unfold mark_one
  simp [h]

theorem mark_one_spec_le (aligns : sgrna_target → Nat → Bool)
    (threshold : Nat) (p : String × sgrna_target) :
    p.2.specificity ≤ (mark_one aligns threshold p).2.specificity := by
  unfold mark_one
  split
  · exact le_refl _
  · split
    · rename_i hcond
      have h2 : p.2.specificity < threshold := by
        simpa using (Bool.and_elim_right hcond)
      exact le_of_lt h2
    · exact le_refl _

theorem ascribe_round_eq_mark (aligns : sgrna_target → Nat → Bool)
    (targets : List (String × sgrna_target)) (threshold : Nat) :
    ascribe_round aligns targets threshold =
      mark_specificity_threshold aligns threshold targets := by
  unfold ascribe_round
  split
  · rfl
  · rename_i hall
    unfold mark_specificity_threshold
    have hid : ∀ x ∈ targets, mark_one aligns threshold x = id x := by
      intro x hx
      have hx0 : ¬ x.2.specificity = 0 := by
        intro h
        exact hall (List.any_eq_true.mpr ⟨x, hx, by simp [h]⟩)
      exact mark_one_id_of_pos aligns threshold x (Nat.pos_of_ne_zero hx0)
    rw [List.map_congr_left hid, List.map_id]

theorem ascribe_rounds_eq_map (aligns : sgrna_target → Nat → Bool)
    (schedule : List Nat) (targets : List (String × sgrna_target)) :
    ascribe_rounds aligns schedule targets =
      targets.map (fun p =>
        schedule.foldl (fun q threshold => mark_one aligns threshold q) p) := by
  induction schedule generalizing targets with
  | nil => simp [ascribe_rounds]
  | cons threshold rest ih =>
    show ascribe_rounds aligns (threshold :: rest) targets = _
    unfold ascribe_rounds
    simp only [List.foldl_cons]
    rw [show List.foldl (ascribe_round aligns)
        (ascribe_round aligns targets threshold) rest =
        ascribe_rounds aligns rest (ascribe_round aligns targets threshold) from rfl]
    rw [ih, ascribe_round_eq_mark]
    unfold mark_specificity_threshold
    rw [List.map_map]
    rfl

theorem fold_mark_id_of_pos (aligns : sgrna_target → Nat → Bool)
    (schedule : List Nat) (p : String × sgrna_target)
    (h : 0 < p.2.specificity) :
    schedule.foldl (fun q threshold => mark_one aligns threshold q) p = p := by
  induction schedule with
  | nil => rfl
  | cons threshold rest ih =>
    simp only [List.foldl_cons]
    rw [mark_one_id_of_pos aligns threshold p h, ih]

theorem fold_mark_spec_le (aligns : sgrna_target → Nat → Bool)
    (schedule : List Nat) (p : String × sgrna_target) :
    p.2.specificity ≤
      (schedule.foldl (fun q threshold => mark_one aligns threshold q) p).2.specificity := by
  induction schedule generalizing p with
  | nil => exact le_refl _
  | cons threshold rest ih =>
    simp only [List.foldl_cons]
    exact le_trans (mark_one_spec_le aligns threshold p) (ih _)

theorem fold_mark_spec_zero (aligns : sgrna_target → Nat → Bool)
    (schedule : List Nat) (hs : ∀ threshold ∈ schedule, 0 < threshold)
    (p : String × sgrna_target) (h : p.2.specificity = 0) :
    schedule.foldl (fun q threshold => mark_one aligns threshold q) p =
      (p.1, { p.2 with specificity :=
        (schedule.find? (fun threshold => aligns p.2 threshold)).getD 0 }) := by
  induction schedule with
  | nil =>
    simp only [List.foldl_nil, List.find?_nil, Option.getD_none]
    rw [← h]
  | cons threshold rest ih =>
    have hpos : 0 < threshold := hs threshold (by simp)
    by_cases ha : aligns p.2 threshold
    · have hstep : mark_one aligns threshold p =
          (p.1, { p.2 with specificity := threshold }) := by
        unfold mark_one
        simp [h, ha, hpos]
      simp only [List.foldl_cons]
      rw [hstep, fold_mark_id_of_pos aligns rest _ (by simpa using hpos)]
      simp [List.find?_cons, ha]
    · have hstep : mark_one aligns threshold p = p := by
        unfold mark_one
        simp [h, ha]
      simp only [List.foldl_cons]
      rw [hstep, ih (fun x hx => hs x (by simp [hx]))]
      simp [List.find?_cons, ha]

/-- C4: after `ascribe_specificity`, every target's specificity is the
first tolerance of the schedule `(39, 30, 20, 11, 1)` at which the
aligner reported a unique alignment for it, and 0 when no tested
tolerance did. -/
theorem ascribe_specificity_first_tolerance
    (aligns : sgrna_target → Nat → Bool)
    (targets : List (String × sgrna_target))
    (h0 : ∀ p ∈ targets, p.2.specificity = 0) :
    ascribe_specificity aligns targets =
      targets.map (fun p =>
        (p.1, { p.2 with specificity := spec_first_unique_tolerance aligns p.2 })) := by
  unfold ascribe_specificity
  rw [ascribe_rounds_eq_map]
  apply List.map_congr_left
  intro p hp
  exact fold_mark_spec_zero aligns tolerance_schedule (by decide) p (h0 p hp)

/-- Witness for C4: a target that uniquely aligns at tolerance 30 but
not at 39 ends the run with specificity 30. -/
theorem ascribe_specificity_first_tolerance_witness :
    ascribe_specificity exAligns exTargets =
      [(exT.id_str, { exT with specificity := 30 })] := by
  rw [ascribe_specificity_first_tolerance exAligns exTargets (by decide)]
  decide

/-- C5: throughout scoring (after any prefix of the tolerance schedule)
every specificity is 0 or a schedule value, and a specificity that is
already positive is never changed by the remaining rounds. -/
theorem specificity_monotone (aligns : sgrna_target → Nat → Bool)
    (targets : List (String × sgrna_target))
    (h0 : ∀ p ∈ targets, p.2.specificity = 0)
    (p q : List Nat) (hpq : p ++ q = tolerance_schedule) :
    (∀ x ∈ ascribe_rounds aligns p targets,
        x.2.specificity = 0 ∨ x.2.specificity ∈ tolerance_schedule) ∧
    (∀ (i : Nat) (a b : String × sgrna_target),
        (ascribe_rounds aligns p targets)[i]? = some a →
        (ascribe_specificity aligns targets)[i]? = some b →
        a.2.specificity ≤ b.2.specificity ∧
          (0 < a.2.specificity → b.2.specificity = a.2.specificity)) := by
  have hsched : ∀ τ ∈ tolerance_schedule, 0 < τ := by decide
  have hmap := ascribe_rounds_eq_map aligns p targets
  have hfin : ascribe_specificity aligns targets =
      targets.map (fun x =>
        (p ++ q).foldl (fun s threshold => mark_one aligns threshold s) x) := by
    unfold ascribe_specificity
    rw [hpq, ascribe_rounds_eq_map]
  constructor
  · intro x hx
    rw [hmap] at hx
    rcases List.mem_map.mp hx with ⟨y, hy, rfl⟩
    rw [fold_mark_spec_zero aligns p
      (fun τ hτ => hsched τ (by rw [← hpq]; exact List.mem_append_left q hτ))
      y (h0 y hy)]
    cases hfind : p.find? (fun threshold => aligns y.2 threshold) with
    | none => simp
    | some τ =>
      right
      simp only [Option.getD_some]
      rw [← hpq]
      exact List.mem_append_left q (List.mem_of_find?_eq_some hfind)
  · intro i a b ha hb
    rw [hmap, List.getElem?_map] at ha
    rw [hfin, List.getElem?_map] at hb
    cases hx : targets[i]? with
    | none => rw [hx] at ha; exact absurd ha (by simp)
    | some x =>
      rw [hx] at ha hb
      simp only [Option.map_some'] at ha hb
      have ha' := Option.some.inj ha
      have hb' := Option.some.inj hb
      subst ha'
      subst hb'
      rw [List.foldl_append]
      constructor
      · exact fold_mark_spec_le aligns q _
      · intro hpos
        rw [fold_mark_id_of_pos aligns q _ hpos]

/-- Witness for C5 at a concrete split of the schedule. -/
theorem specificity_monotone_witness :
    (∀ x ∈ ascribe_rounds exAligns [39] exTargets,
        x.2.specificity = 0 ∨ x.2.specificity ∈ tolerance_schedule) ∧
    (∀ (i : Nat) (a b : String × sgrna_target),
        (ascribe_rounds exAligns [39] exTargets)[i]? = some a →
        (ascribe_specificity exAligns exTargets)[i]? = some b →
        a.2.specificity ≤ b.2.specificity ∧
          (0 < a.2.specificity → b.2.specificity = a.2.specificity)) :=
  specificity_monotone exAligns exTargets (by decide) [39] [30, 20, 11, 1] rfl

theorem contains_N_eq_false_iff (l : List Char) :
    l.contains 'N' = false ↔ 'N' ∉ l := by
  rw [← Bool.not_eq_true]
  constructor
  · intro h hm
    exact h (List.elem_iff.mpr hm)
  · intro h hc
    exact h (List.elem_iff.mp hc)

theorem DNA_PAIRINGS_eq_N (c : Char) (h : DNA_PAIRINGS c = 'N') : c = 'N' := by
  unfold DNA_PAIRINGS at h
  split_ifs at h <;> first
    | exact absurd h (by decide)
    | exact h

theorem N_not_mem_revcomp (s : List Char) (h : 'N' ∉ s) : 'N' ∉ revcomp s := by
  intro hN
  unfold revcomp at hN
  rw [List.mem_reverse] at hN
  obtain ⟨c, hc, hcN⟩ := List.mem_map.mp hN
  exact h (DNA_PAIRINGS_eq_N c hcN ▸ hc)

theorem pyslice_take (g : List Char) (a n m : Nat) :
    pyslice g a (a + n) = (pyslice g a (a + n + m)).take n := by
  unfold pyslice
  rw [List.take_take]
  congr 1
  omega

theorem pyslice_drop (g : List Char) (a d n : Nat) :
    pyslice g (a + d) (a + d + n) = (pyslice g a (a + d + n)).drop d := by
  unfold pyslice
  rw [List.drop_take, List.drop_drop]
  have h1 : a + d + n - a - d = n := by omega
  have h2 : a + d + n - (a + d) = n := by omega
  have h3 : a + d = d + a := by omega
  rw [h1, h2, h3]

theorem fwd_hit_target_N_free (pamLen tlen : Nat) (chrom : String)
    (g : List Char) (i : Nat) (h : 'N' ∉ pyslice g i (i + tlen + pamLen)) :
    'N' ∉ (fwd_hit_target pamLen tlen chrom g i).sequence ∧
      'N' ∉ (fwd_hit_target pamLen tlen chrom g i).motif := by
  constructor
  · show 'N' ∉ pyslice g i (i + tlen)
    intro hm
    rw [pyslice_take g i tlen pamLen] at hm
    exact h (List.take_subset _ _ hm)
  · show 'N' ∉ (if pamLen = 0 then pyslice g i (i + tlen + pamLen)
      else (pyslice g i (i + tlen + pamLen)).drop tlen)
    split
    · exact h
    · intro hm
      exact h (List.drop_subset _ _ hm)

theorem rev_hit_target_N_free (pamLen tlen : Nat) (chrom : String)
    (g : List Char) (i : Nat) (h : 'N' ∉ pyslice g i (i + pamLen + tlen)) :
    'N' ∉ (rev_hit_target pamLen tlen chrom g i).sequence ∧
      'N' ∉ (rev_hit_target pamLen tlen chrom g i).motif := by
  constructor
  · show 'N' ∉ revcomp (pyslice g (i + pamLen) (i + pamLen + tlen))
    apply N_not_mem_revcomp
    intro hm
    rw [pyslice_drop g i pamLen tlen] at hm
    exact h (List.drop_subset _ _ hm)
  · show 'N' ∉ (if pamLen = 0 then revcomp (pyslice g i (i + pamLen + tlen))
      else (revcomp (pyslice g i (i + pamLen + tlen))).drop tlen)
    have hrc : 'N' ∉ revcomp (pyslice g i (i + pamLen + tlen)) :=
      N_not_mem_revcomp _ h
    split
    · exact hrc
    · intro hm
      exact hrc (List.drop_subset _ _ hm)

theorem fwd_candidates_mem (pamLen tlen : Nat) (pamMatch : List Char → Bool)
    (chrom : String) (g : List Char) (t : sgrna_target)
    (h : t ∈ fwd_candidates pamLen tlen pamMatch chrom g) :
    ∃ i : Nat, fwd_match pamLen tlen pamMatch g i = true ∧
      (pyslice g i (i + tlen + pamLen)).contains 'N' = false ∧
      t = fwd_hit_target pamLen tlen chrom g i := by
  unfold fwd_candidates at h
  obtain ⟨i, _, hf⟩ := List.mem_filterMap.mp h
  refine ⟨i, ?_⟩
  by_cases hm : fwd_match pamLen tlen pamMatch g i = true
  · rw [if_pos hm] at hf
    by_cases hN : (pyslice g i (i + tlen + pamLen)).contains 'N' = true
    · rw [if_pos hN] at hf
      exact absurd hf (by simp)
    · rw [if_neg hN] at hf
      exact ⟨hm, by simpa using hN, (Option.some.inj hf).symm⟩
  · rw [if_neg hm] at hf
    exact absurd hf (by simp)

theorem rev_candidates_mem (pamLen tlen : Nat) (pamMatch : List Char → Bool)
    (chrom : String) (g : List Char) (t : sgrna_target)
    (h : t ∈ rev_candidates pamLen tlen pamMatch chrom g) :
    ∃ i : Nat, rev_match pamLen tlen pamMatch g i = true ∧
      (pyslice g i (i + pamLen + tlen)).contains 'N' = false ∧
      t = rev_hit_target pamLen tlen chrom g i := by
  unfold rev_candidates at h
  obtain ⟨i, _, hf⟩ := List.mem_filterMap.mp h
  refine ⟨i, ?_⟩
  by_cases hm : rev_match pamLen tlen pamMatch g i = true
  · rw [if_pos hm] at hf
    by_cases hN : (pyslice g i (i + pamLen + tlen)).contains 'N' = true
    · rw [if_pos hN] at hf
      exact absurd hf (by simp)
    · rw [if_neg hN] at hf
      exact ⟨hm, by simpa using hN, (Option.some.inj hf).symm⟩
  · rw [if_neg hm] at hf
    exact absurd hf (by simp)

theorem fwd_candidates_mem_of (pamLen tlen : Nat) (pamMatch : List Char → Bool)
    (chrom : String) (g : List Char) (i : Nat)
    (hm : fwd_match pamLen tlen pamMatch g i = true)
    (hN : (pyslice g i (i + tlen + pamLen)).contains 'N' = false) :
    fwd_hit_target pamLen tlen chrom g i ∈
      fwd_candidates pamLen tlen pamMatch chrom g := by
  unfold fwd_candidates
  apply List.mem_filterMap.mpr
  refine ⟨i, ?_, ?_⟩
  · apply List.mem_range.mpr
    have hle : i + tlen + pamLen ≤ g.length := by
      have hc := hm
      unfold fwd_match at hc
      rw [Bool.and_eq_true] at hc
      exact of_decide_eq_true hc.1
    omega
  · have hN2 : ¬((pyslice g i (i + tlen + pamLen)).contains 'N' = true) := by
      rw [hN]
      decide
    rw [if_pos hm, if_neg hN2]

theorem rev_candidates_mem_of (pamLen tlen : Nat) (pamMatch : List Char → Bool)
    (chrom : String) (g : List Char) (i : Nat)
    (hm : rev_match pamLen tlen pamMatch g i = true)
    (hN : (pyslice g i (i + pamLen + tlen)).contains 'N' = false) :
    rev_hit_target pamLen tlen chrom g i ∈
      rev_candidates pamLen tlen pamMatch chrom g := by
  unfold rev_candidates
  apply List.mem_filterMap.mpr
  refine ⟨i, ?_, ?_⟩
  · apply List.mem_range.mpr
    have hle : i + pamLen + tlen ≤ g.length := by
      have hc := hm
      unfold rev_match at hc
      rw [Bool.and_eq_true] at hc
      exact of_decide_eq_true hc.1
    omega
  · have hN2 : ¬((pyslice g i (i + pamLen + tlen)).contains 'N' = true) := by
      rw [hN]
      decide
    rw [if_pos hm, if_neg hN2]

theorem dinsert_keys_of_present (k : String) (v : sgrna_target)
    (m : List (String × sgrna_target))
    (h : m.any (fun p => p.1 == k) = true) :
    (dinsert k v m).map Prod.fst = m.map Prod.fst := by
  unfold dinsert
  rw [if_pos h, List.map_map]
  apply List.map_congr_left
  intro p hp
  show (if (p.1 == k) = true then (p.1, v) else p).1 = p.1
  split <;> rfl

theorem dinsert_keys_of_absent (k : String) (v : sgrna_target)
    (m : List (String × sgrna_target))
    (h : ¬ m.any (fun p => p.1 == k) = true) :
    (dinsert k v m).map Prod.fst = m.map Prod.fst ++ [k] := by
  unfold dinsert
  rw [if_neg h, List.map_append]
  rfl

theorem dinsert_keys_nodup (k : String) (v : sgrna_target)
    (m : List (String × sgrna_target))
    (h : (m.map Prod.fst).Nodup) : ((dinsert k v m).map Prod.fst).Nodup := by
  by_cases hk : m.any (fun p => p.1 == k) = true
  · rw [dinsert_keys_of_present k v m hk]
    exact h
  · rw [dinsert_keys_of_absent k v m hk]
    apply List.Nodup.append h (List.nodup_singleton k)
    intro x hx hx1
    rw [List.mem_singleton] at hx1
    subst hx1
    obtain ⟨p, hp, hfst⟩ := List.mem_map.mp hx
    exact hk (List.any_eq_true.mpr ⟨p, hp, by simp [hfst]⟩)

theorem dinsert_mem (k : String) (v : sgrna_target)
    (m : List (String × sgrna_target)) (x : String × sgrna_target)
    (h : x ∈ dinsert k v m) : x.2 = v ∨ x ∈ m := by
  unfold dinsert at h
  split at h
  · obtain ⟨p, hp, hx⟩ := List.mem_map.mp h
    by_cases hpk : (p.1 == k) = true
    · rw [if_pos hpk] at hx
      left
      rw [← hx]
    · rw [if_neg hpk] at hx
      right
      rw [← hx]
      exact hp
  · rcases List.mem_append.mp h with h1 | h1
    · right; exact h1
    · left
      rw [List.mem_singleton] at h1
      rw [h1]

theorem dinsert_keeps_key (k k' : String) (v : sgrna_target)
    (m : List (String × sgrna_target)) (h : k' ∈ m.map Prod.fst) :
    k' ∈ (dinsert k v m).map Prod.fst := by
  by_cases hk : m.any (fun p => p.1 == k) = true
  · rw [dinsert_keys_of_present k v m hk]
    exact h
  · rw [dinsert_keys_of_absent k v m hk]
    exact List.mem_append_left _ h

theorem dinsert_adds_key (k : String) (v : sgrna_target)
    (m : List (String × sgrna_target)) :
    k ∈ (dinsert k v m).map Prod.fst := by
  by_cases hk : m.any (fun p => p.1 == k) = true
  · rw [dinsert_keys_of_present k v m hk]
    obtain ⟨p, hp, hpk⟩ := List.any_eq_true.mp hk
    have : p.1 = k := by simpa using hpk
    rw [← this]
    exact List.mem_map_of_mem Prod.fst hp
  · rw [dinsert_keys_of_absent k v m hk]
    exact List.mem_append_right _ (List.mem_singleton.mpr rfl)

theorem dinsert_all_keys_nodup (ts : List sgrna_target)
    (m : List (String × sgrna_target)) (h : (m.map Prod.fst).Nodup) :
    ((dinsert_all ts m).map Prod.fst).Nodup := by
  induction ts generalizing m with
  | nil => exact h
  | cons t rest ih =>
    show (((rest.foldl (fun acc x => dinsert x.id_str x acc)
      (dinsert t.id_str t m))).map Prod.fst).Nodup
    exact ih (dinsert t.id_str t m) (dinsert_keys_nodup _ _ _ h)

theorem dinsert_all_mem (ts : List sgrna_target)
    (m : List (String × sgrna_target)) (x : String × sgrna_target)
    (h : x ∈ dinsert_all ts m) : x.2 ∈ ts ∨ x ∈ m := by
  induction ts generalizing m with
  | nil => right; exact h
  | cons t rest ih =>
    have h' : x ∈ dinsert_all rest (dinsert t.id_str t m) := h
    rcases ih (dinsert t.id_str t m) h' with h1 | h1
    · left; exact List.mem_cons_of_mem t h1
    · rcases dinsert_mem t.id_str t m x h1 with h2 | h2
      · left
        rw [h2]
        exact List.mem_cons_self t rest
      · right; exact h2

theorem dinsert_all_keeps_key (ts : List sgrna_target) (k' : String)
    (m : List (String × sgrna_target)) (h : k' ∈ m.map Prod.fst) :
    k' ∈ (dinsert_all ts m).map Prod.fst := by
  induction ts generalizing m with
  | nil => exact h
  | cons t rest ih =>
    exact ih (dinsert t.id_str t m) (dinsert_keeps_key t.id_str k' t m h)

theorem dinsert_all_adds_key (ts : List sgrna_target) (t : sgrna_target)
    (m : List (String × sgrna_target)) (ht : t ∈ ts) :
    t.id_str ∈ (dinsert_all ts m).map Prod.fst := by
  induction ts generalizing m with
  | nil => exact absurd ht (List.not_mem_nil t)
  | cons u rest ih =>
    rcases List.mem_cons.mp ht with h1 | h1
    · subst h1
      exact dinsert_all_keeps_key rest t.id_str (dinsert t.id_str t m)
        (dinsert_adds_key t.id_str t m)
    · exact ih (dinsert u.id_str u m) h1

theorem extract_record_step_keys_nodup (pamLen tlen : Nat)
    (pamMatch : List Char → Bool) (acc : List (String × sgrna_target))
    (rec : String × List Char) (h : (acc.map Prod.fst).Nodup) :
    ((extract_record_step pamLen tlen pamMatch acc rec).map Prod.fst).Nodup := by
  unfold extract_record_step
  exact dinsert_all_keys_nodup _ _ (dinsert_all_keys_nodup _ _ h)

theorem extract_record_step_mem (pamLen tlen : Nat)
    (pamMatch : List Char → Bool) (acc : List (String × sgrna_target))
    (rec : String × List Char) (x : String × sgrna_target)
    (h : x ∈ extract_record_step pamLen tlen pamMatch acc rec) :
    x.2 ∈ fwd_candidates pamLen tlen pamMatch rec.1 (rec.2.map Char.toUpper) ∨
    x.2 ∈ rev_candidates pamLen tlen pamMatch rec.1 (rec.2.map Char.toUpper) ∨
    x ∈ acc := by
  unfold extract_record_step at h
  rcases dinsert_all_mem _ _ x h with h1 | h1
  · right; left; exact h1
  · rcases dinsert_all_mem _ _ x h1 with h2 | h2
    · left; exact h2
    · right; right; exact h2

theorem extract_record_step_keeps_key (pamLen tlen : Nat)
    (pamMatch : List Char → Bool) (acc : List (String × sgrna_target))
    (rec : String × List Char) (k' : String) (h : k' ∈ acc.map Prod.fst) :
    k' ∈ (extract_record_step pamLen tlen pamMatch acc rec).map Prod.fst := by
  unfold extract_record_step
  exact dinsert_all_keeps_key _ _ _ (dinsert_all_keeps_key _ _ _ h)

theorem extract_record_step_adds_key (pamLen tlen : Nat)
    (pamMatch : List Char → Bool) (acc : List (String × sgrna_target))
    (rec : String × List Char) (t : sgrna_target)
    (h : t ∈ fwd_candidates pamLen tlen pamMatch rec.1 (rec.2.map Char.toUpper) ∨
         t ∈ rev_candidates pamLen tlen pamMatch rec.1 (rec.2.map Char.toUpper)) :
    t.id_str ∈ (extract_record_step pamLen tlen pamMatch acc rec).map Prod.fst := by
  unfold extract_record_step
  rcases h with h1 | h1
  · exact dinsert_all_keeps_key _ _ _ (dinsert_all_adds_key _ t _ h1)
  · exact dinsert_all_adds_key _ t _ h1

theorem extract_fold_keys_nodup (pamLen tlen : Nat)
    (pamMatch : List Char → Bool) (records : List (String × List Char)) :
    ∀ acc : List (String × sgrna_target), (acc.map Prod.fst).Nodup →
      ((records.foldl (extract_record_step pamLen tlen pamMatch) acc).map
        Prod.fst).Nodup := by
  induction records with
  | nil => intro acc h; exact h
  | cons rec rest ih =>
    intro acc h
    exact ih _ (extract_record_step_keys_nodup pamLen tlen pamMatch acc rec h)

theorem extract_fold_mem (pamLen tlen : Nat) (pamMatch : List Char → Bool)
    (records : List (String × List Char)) :
    ∀ (acc : List (String × sgrna_target)) (x : String × sgrna_target),
      x ∈ records.foldl (extract_record_step pamLen tlen pamMatch) acc →
      x ∈ acc ∨ ∃ rec ∈ records,
        x.2 ∈ fwd_candidates pamLen tlen pamMatch rec.1 (rec.2.map Char.toUpper) ∨
        x.2 ∈ rev_candidates pamLen tlen pamMatch rec.1 (rec.2.map Char.toUpper) := by
  induction records with
  | nil => intro acc x h; left; exact h
  | cons rec rest ih =>
    intro acc x h
    rcases ih _ x h with h1 | h1
    · rcases extract_record_step_mem pamLen tlen pamMatch acc rec x h1 with
        h2 | h2 | h2
      · right; exact ⟨rec, List.mem_cons_self rec rest, Or.inl h2⟩
      · right; exact ⟨rec, List.mem_cons_self rec rest, Or.inr h2⟩
      · left; exact h2
    · obtain ⟨r, hr, hcand⟩ := h1
      right
      exact ⟨r, List.mem_cons_of_mem rec hr, hcand⟩

theorem extract_fold_keeps_key (pamLen tlen : Nat)
    (pamMatch : List Char → Bool) (records : List (String × List Char)) :
    ∀ (acc : List (String × sgrna_target)) (k' : String),
      k' ∈ acc.map Prod.fst →
      k' ∈ (records.foldl (extract_record_step pamLen tlen pamMatch) acc).map
        Prod.fst := by
  induction records with
  | nil => intro acc k' h; exact h
  | cons rec rest ih =>
    intro acc k' h
    exact ih _ k' (extract_record_step_keeps_key pamLen tlen pamMatch acc rec k' h)

theorem extract_fold_adds_key (pamLen tlen : Nat)
    (pamMatch : List Char → Bool) (records : List (String × List Char)) :
    ∀ (acc : List (String × sgrna_target)) (rec : String × List Char)
      (t : sgrna_target), rec ∈ records →
      (t ∈ fwd_candidates pamLen tlen pamMatch rec.1 (rec.2.map Char.toUpper) ∨
       t ∈ rev_candidates pamLen tlen pamMatch rec.1 (rec.2.map Char.toUpper)) →
      t.id_str ∈ (records.foldl (extract_record_step pamLen tlen pamMatch) acc).map
        Prod.fst := by
  induction records with
  | nil =>
    intro acc rec t hrec _
    exact absurd hrec (List.not_mem_nil rec)
  | cons r rest ih =>
    intro acc rec t hrec hcand
    rcases List.mem_cons.mp hrec with h1 | h1
    · subst h1
      exact extract_fold_keeps_key pamLen tlen pamMatch rest _ t.id_str
        (extract_record_step_adds_key pamLen tlen pamMatch acc rec t hcand)
    · exact ih _ rec t h1 hcand

/-- C9: the mapping `extract_targets` returns has no two entries sharing
an identity key (later duplicates overwrite), and re-running the
extraction on the same input yields the same mapping. -/
theorem extract_targets_unique_keys_idempotent
    (records : List (String × List Char)) (pamLen tlen : Nat)
    (pamMatch : List Char → Bool) :
    ((extract_targets records pamLen tlen pamMatch).map Prod.fst).Nodup ∧
    extract_targets records pamLen tlen pamMatch =
      extract_targets records pamLen tlen pamMatch :=
  ⟨extract_fold_keys_nodup pamLen tlen pamMatch records [] List.nodup_nil, rfl⟩

/-- C10: every target `extract_targets` produces, on either strand, spans
exactly `target_len` bases: `end - start = target_len`. -/
theorem extract_targets_span (records : List (String × List Char))
    (pamLen tlen : Nat) (pamMatch : List Char → Bool) :
    ∀ p ∈ extract_targets records pamLen tlen pamMatch,
      p.2.end_ = p.2.start + tlen := by
  intro p hp
  rcases extract_fold_mem pamLen tlen pamMatch records [] p hp with h1 | h1
  · exact absurd h1 (List.not_mem_nil p)
  · obtain ⟨rec, _, hcand⟩ := h1
    rcases hcand with h2 | h2
    · obtain ⟨i, _, _, ht⟩ := fwd_candidates_mem _ _ _ _ _ _ h2
      rw [ht]
      rfl
    · obtain ⟨i, _, _, ht⟩ := rev_candidates_mem _ _ _ _ _ _ h2
      rw [ht]
      rfl

/-- Witness for C10 at the example genome: the extracted target
`AAAA`/`TGG` spans bases 0–4. -/
theorem extract_targets_span_witness :
    (("AAAA_TGG_chr1_0_4_f",
      ({ sequence := ['A', 'A', 'A', 'A'], motif := ['T', 'G', 'G'],
         chrom := "chr1", start := 0, end_ := 4,
         reverse := false } : sgrna_target)) ∈
        extract_targets exRecords 3 4 exPamMatch) ∧
    (4 : Nat) = 0 + 4 :=
  ⟨by decide,
   extract_targets_span exRecords 3 4 exPamMatch
     ("AAAA_TGG_chr1_0_4_f",
      { sequence := ['A', 'A', 'A', 'A'], motif := ['T', 'G', 'G'],
        chrom := "chr1", start := 0, end_ := 4, reverse := false })
     (by decide)⟩

/-- C6 (amended): a motif-adjacent match is discarded exactly when its
full captured group — the `target_len` window *plus* the motif bases
actually matched (`hit.group(1)`) — contains `'N'`; accordingly no stored
target carries an `'N'` in its sequence or motif, and every match whose
full capture is `'N'`-free contributes its identity key to the mapping. -/
theorem extract_targets_N_discard (records : List (String × List Char))
    (pamLen tlen : Nat) (pamMatch : List Char → Bool) :
    (∀ p ∈ extract_targets records pamLen tlen pamMatch,
        'N' ∉ p.2.sequence ∧ 'N' ∉ p.2.motif) ∧
    (∀ rec ∈ records, ∀ i : Nat,
        fwd_match pamLen tlen pamMatch (rec.2.map Char.toUpper) i = true →
        'N' ∉ pyslice (rec.2.map Char.toUpper) i (i + tlen + pamLen) →
        (fwd_hit_target pamLen tlen rec.1 (rec.2.map Char.toUpper) i).id_str ∈
          (extract_targets records pamLen tlen pamMatch).map Prod.fst) ∧
    (∀ rec ∈ records, ∀ i : Nat,
        rev_match pamLen tlen pamMatch (rec.2.map Char.toUpper) i = true →
        'N' ∉ pyslice (rec.2.map Char.toUpper) i (i + pamLen + tlen) →
        (rev_hit_target pamLen tlen rec.1 (rec.2.map Char.toUpper) i).id_str ∈
          (extract_targets records pamLen tlen pamMatch).map Prod.fst) := by
  refine ⟨?_, ?_, ?_⟩
  · intro p hp
    rcases extract_fold_mem pamLen tlen pamMatch records [] p hp with h1 | h1
    · exact absurd h1 (List.not_mem_nil p)
    · obtain ⟨rec, _, hcand⟩ := h1
      rcases hcand with h2 | h2
      · obtain ⟨i, _, hN, ht⟩ := fwd_candidates_mem _ _ _ _ _ _ h2
        rw [ht]
        exact fwd_hit_target_N_free _ _ _ _ _
          ((contains_N_eq_false_iff _).mp hN)
      · obtain ⟨i, _, hN, ht⟩ := rev_candidates_mem _ _ _ _ _ _ h2
        rw [ht]
        exact rev_hit_target_N_free _ _ _ _ _
          ((contains_N_eq_false_iff _).mp hN)
  · intro rec hrec i hm hN
    exact extract_fold_adds_key pamLen tlen pamMatch records [] rec _ hrec
      (Or.inl (fwd_candidates_mem_of _ _ _ _ _ i hm
        ((contains_N_eq_false_iff _).mpr hN)))
  · intro rec hrec i hm hN
    exact extract_fold_adds_key pamLen tlen pamMatch records [] rec _ hrec
      (Or.inr (rev_candidates_mem_of _ _ _ _ _ i hm
        ((contains_N_eq_false_iff _).mpr hN)))

/-- Witness for the amended C6 at the example genome: the `'N'`-free
match at position 0 contributes its key. -/
theorem extract_targets_N_discard_witness :
    (fwd_hit_target 3 4 "chr1" (exGenome.map Char.toUpper) 0).id_str ∈
      (extract_targets exRecords 3 4 exPamMatch).map Prod.fst :=
  (extract_targets_N_discard exRecords 3 4 exPamMatch).2.1
    ("chr1", exGenome) (by decide) 0 (by decide) (by decide)

/-- Counterexample to C6 as stated: in `c6Genome = "AAAANGG"` with PAM
pattern `.GG` and window length 4, the forward pattern matches at
position 0 and the captured window `"AAAA"` is `'N'`-free, yet no target
is produced, because the source tests `hit.group(1)` — window plus
matched PAM bases `"NGG"` — for `'N'`. -/
theorem extract_targets_N_window_counterexample :
    fwd_match 3 4 exPamMatch c6Genome 0 = true ∧
    'N' ∉ pyslice c6Genome 0 4 ∧
    extract_targets [("chr1", c6Genome)] 3 4 exPamMatch = [] := by
  decide

theorem target_le_total (a b : sgrna_target) :
    target_le a b = true ∨ target_le b a = true := by
  unfold target_le
  simp only [Bool.or_eq_true, Bool.and_eq_true, decide_eq_true_eq]
  omega

theorem target_le_trans (a b c : sgrna_target) (h1 : target_le a b = true)
    (h2 : target_le b c = true) : target_le a c = true := by
  unfold target_le at h1 h2 ⊢
  simp only [Bool.or_eq_true, Bool.and_eq_true, decide_eq_true_eq] at h1 h2 ⊢
  omega

theorem insert_sorted_perm (t : sgrna_target) (l : List sgrna_target) :
    (insert_sorted t l).Perm (t :: l) := by
  induction l with
  | nil => exact List.Perm.refl _
  | cons x xs ih =>
    unfold insert_sorted
    split
    · exact ((ih.cons x).trans (List.Perm.swap t x xs)).symm.symm
    · exact List.Perm.refl _

theorem insert_sorted_pairwise (t : sgrna_target) (l : List sgrna_target)
    (h : l.Pairwise (fun a b => target_le a b = true)) :
    (insert_sorted t l).Pairwise (fun a b => target_le a b = true) := by
  induction l with
  | nil => exact List.pairwise_singleton _ t
  | cons x xs ih =>
    rw [List.pairwise_cons] at h
    unfold insert_sorted
    split
    · rename_i hle
      rw [List.pairwise_cons]
      constructor
      · intro y hy
        have hy2 : y ∈ t :: xs := (insert_sorted_perm t xs).mem_iff.mp hy
        rcases List.mem_cons.mp hy2 with h1 | h1
        · subst h1
          exact hle
        · exact h.1 y h1
      · exact ih h.2
    · rename_i hnle
      have hle : target_le t x = true := by
        rcases target_le_total x t with h1 | h1
        · exact absurd h1 hnle
        · exact h1
      rw [List.pairwise_cons]
      constructor
      · intro y hy
        rcases List.mem_cons.mp hy with h1 | h1
        · rw [h1]; exact hle
        · exact target_le_trans t x y hle (h.1 y h1)
      · rw [List.pairwise_cons]
        exact h

theorem sort_targets_fold_perm (l : List sgrna_target) :
    ∀ acc : List sgrna_target,
      (l.foldl (fun acc t => insert_sorted t acc) acc).Perm (acc ++ l) := by
  induction l with
  | nil => intro acc; simp
  | cons t ts ih =>
    intro acc
    have h1 : (ts.foldl (fun acc t => insert_sorted t acc)
        (insert_sorted t acc)).Perm ((insert_sorted t acc) ++ ts) := ih _
    refine h1.trans ?_
    have h2 : ((insert_sorted t acc) ++ ts).Perm ((t :: acc) ++ ts) :=
      (insert_sorted_perm t acc).append_right ts
    refine h2.trans ?_
    exact (List.perm_middle).symm

theorem sort_targets_perm (l : List sgrna_target) :
    (sort_targets l).Perm l := by
  have h := sort_targets_fold_perm l []
  simpa using h

theorem sort_targets_fold_pairwise (l : List sgrna_target) :
    ∀ acc : List sgrna_target,
      acc.Pairwise (fun a b => target_le a b = true) →
      (l.foldl (fun acc t => insert_sorted t acc) acc).Pairwise
        (fun a b => target_le a b = true) := by
  induction l with
  | nil => intro acc h; exact h
  | cons t ts ih =>
    intro acc h
    exact ih _ (insert_sorted_pairwise t acc h)

theorem sort_targets_pairwise (l : List sgrna_target) :
    (sort_targets l).Pairwise (fun a b => target_le a b = true) :=
  sort_targets_fold_pairwise l [] List.Pairwise.nil

theorem per_chrom_sorted_targets_start_mono
    (targets : List (String × sgrna_target)) (c : String) :
    (per_chrom_sorted_targets targets c).Pairwise
      (fun a b => a.start ≤ b.start) := by
  apply (sort_targets_pairwise _).imp
  intro a b h
  unfold target_le at h
  simp only [Bool.or_eq_true, Bool.and_eq_true, decide_eq_true_eq] at h
  omega

theorem per_chrom_sorted_targets_mem
    (targets : List (String × sgrna_target)) (c : String)
    (t : sgrna_target) (h : t ∈ per_chrom_sorted_targets targets c) :
    ∃ p ∈ targets, p.2 = t ∧ t.chrom = c := by
  have h1 := (sort_targets_perm _).mem_iff.mp h
  obtain ⟨p, hp, hpt⟩ := List.mem_map.mp h1
  have hc := List.mem_filter.mp hp
  refine ⟨p, hc.1, hpt, ?_⟩
  rw [← hpt]
  simpa using hc.2

theorem advance_while_zero (cond : sgrna_target → Bool)
    (ts : List sgrna_target) (i : Nat) : advance_while cond ts i 0 = i := rfl

theorem advance_while_succ (cond : sgrna_target → Bool)
    (ts : List sgrna_target) (i fuel : Nat) :
    advance_while cond ts i (fuel + 1) =
      match ts[i]? with
      | none => i
      | some t => if cond t then advance_while cond ts (i + 1) fuel else i := rfl

theorem getElem?_some_lt (ts : List sgrna_target) (i : Nat) (t : sgrna_target)
    (h : ts[i]? = some t) : i < ts.length := by
  by_contra hc
  rw [List.getElem?_eq_none (by omega)] at h
  exact absurd h (by simp)

theorem advance_while_ge (cond : sgrna_target → Bool)
    (ts : List sgrna_target) :
    ∀ fuel i, i ≤ advance_while cond ts i fuel := by
  intro fuel
  induction fuel with
  | zero => intro i; exact le_refl i
  | succ fuel ih =>
    intro i
    rw [advance_while_succ]
    cases hg : ts[i]? with
    | none => exact le_refl i
    | some t =>
      show i ≤ if cond t = true then advance_while cond ts (i + 1) fuel else i
      split
      · exact le_trans (Nat.le_succ i) (ih (i + 1))
      · exact le_refl i

theorem advance_while_le_length (cond : sgrna_target → Bool)
    (ts : List sgrna_target) :
    ∀ fuel i, i ≤ ts.length → advance_while cond ts i fuel ≤ ts.length := by
  intro fuel
  induction fuel with
  | zero => intro i h; exact h
  | succ fuel ih =>
    intro i h
    rw [advance_while_succ]
    cases hg : ts[i]? with
    | none => exact h
    | some t =>
      show (if cond t = true then advance_while cond ts (i + 1) fuel else i) ≤
        ts.length
      have hi : i < ts.length := getElem?_some_lt ts i t hg
      split
      · exact ih (i + 1) hi
      · exact h

theorem advance_while_passed (cond : sgrna_target → Bool)
    (ts : List sgrna_target) :
    ∀ fuel i j, i ≤ j → j < advance_while cond ts i fuel →
      ∃ t, ts[j]? = some t ∧ cond t = true := by
  intro fuel
  induction fuel with
  | zero =>
    intro i j hij hj
    rw [advance_while_zero] at hj
    omega
  | succ fuel ih =>
    intro i j hij hj
    rw [advance_while_succ] at hj
    cases hg : ts[i]? with
    | none =>
      rw [hg] at hj
      have hj2 : j < i := hj
      omega
    | some t =>
      rw [hg] at hj
      have hj2 : j < if cond t = true then advance_while cond ts (i + 1) fuel
        else i := hj
      by_cases hc : cond t = true
      · rw [if_pos hc] at hj2
        rcases Nat.eq_or_lt_of_le hij with h1 | h1
        · subst h1
          exact ⟨t, hg, hc⟩
        · exact ih (i + 1) j h1 hj2
      · rw [if_neg hc] at hj2
        omega

theorem advance_while_stop (cond : sgrna_target → Bool)
    (ts : List sgrna_target) :
    ∀ fuel i, ts.length ≤ i + fuel →
      advance_while cond ts i fuel < ts.length →
      ∃ t, ts[advance_while cond ts i fuel]? = some t ∧ cond t = false := by
  intro fuel
  induction fuel with
  | zero =>
    intro i hfuel hlt
    rw [advance_while_zero] at hlt
    omega
  | succ fuel ih =>
    intro i hfuel hlt
    rw [advance_while_succ] at hlt ⊢
    cases hg : ts[i]? with
    | none =>
      rw [hg] at hlt
      have hlt2 : i < ts.length := hlt
      have : ts.length ≤ i := by
        by_contra hc
        rw [List.getElem?_eq_getElem (by omega)] at hg
        exact absurd hg (by simp)
      omega
    | some t =>
      rw [hg] at hlt
      have hlt2 : (if cond t = true then advance_while cond ts (i + 1) fuel
        else i) < ts.length := hlt
      refine cast ?_ (?_ : ∃ u, ts[if cond t = true then
        advance_while cond ts (i + 1) fuel else i]? = some u ∧ cond u = false)
      · rfl
      by_cases hc : cond t = true
      · rw [if_pos hc] at hlt2 ⊢
        exact ih (i + 1) (by omega) hlt2
      · rw [if_neg hc] at hlt2 ⊢
        exact ⟨t, hg, by simpa using hc⟩

theorem advance_while_reach (cond : sgrna_target → Bool)
    (ts : List sgrna_target) :
    ∀ fuel i j, i ≤ j → ts.length ≤ i + fuel →
      (∀ k, i ≤ k → k ≤ j → ∃ t, ts[k]? = some t ∧ cond t = true) →
      j < advance_while cond ts i fuel := by
  intro fuel
  induction fuel with
  | zero =>
    intro i j hij hfuel hall
    obtain ⟨t, hg, _⟩ := hall i (le_refl i) hij
    have := getElem?_some_lt ts i t hg
    omega
  | succ fuel ih =>
    intro i j hij hfuel hall
    obtain ⟨t, hg, hc⟩ := hall i (le_refl i) hij
    rw [advance_while_succ, hg]
    show j < if cond t = true then advance_while cond ts (i + 1) fuel else i
    rw [if_pos hc]
    rcases Nat.eq_or_lt_of_le hij with h1 | h1
    · have hge := advance_while_ge cond ts fuel (i + 1)
      omega
    · exact ih (i + 1) j h1 (by omega)
        (fun k hk1 hk2 => hall k (by omega) hk2)

theorem mem_slice_iff (ts : List sgrna_target) (f b : Nat) (t : sgrna_target) :
    t ∈ (ts.drop f).take (b - f) ↔ ∃ j, f ≤ j ∧ j < b ∧ ts[j]? = some t := by
  rw [List.mem_iff_getElem?]
  constructor
  · rintro ⟨m, hm⟩
    rw [List.getElem?_take] at hm
    split at hm
    · rename_i hmb
      rw [List.getElem?_drop] at hm
      exact ⟨f + m, by omega, by omega, hm⟩
    · exact absurd hm (by simp)
  · rintro ⟨j, hfj, hjb, hj⟩
    refine ⟨j - f, ?_⟩
    rw [List.getElem?_take, if_pos (by omega), List.getElem?_drop,
      show f + (j - f) = j by omega]
    exact hj

theorem advance_while_zero_lt_iff (cond : sgrna_target → Bool)
    (ts : List sgrna_target)
    (hdc : ∀ (j k : Nat) (t u : sgrna_target), k ≤ j → ts[j]? = some t →
      ts[k]? = some u → cond t = true → cond u = true)
    (j : Nat) (t : sgrna_target) (hjt : ts[j]? = some t) :
    j < advance_while cond ts 0 ts.length ↔ cond t = true := by
  constructor
  · intro h
    obtain ⟨u, hu, hcu⟩ := advance_while_passed cond ts ts.length 0 j
      (Nat.zero_le j) h
    rw [hjt] at hu
    rw [Option.some.inj hu]
    exact hcu
  · intro hc
    apply advance_while_reach cond ts ts.length 0 j (Nat.zero_le j) (by omega)
    intro k hk0 hkj
    have hk : k < ts.length := by
      have := getElem?_some_lt ts j t hjt
      omega
    refine ⟨ts[k], List.getElem?_eq_getElem hk, ?_⟩
    exact hdc j k t ts[k] hkj hjt (List.getElem?_eq_getElem hk) hc

/-- C1 (amended): for targets of a single span (as `extract_targets`
produces) and for the first region processed on a chromosome (cursors
still at `(0, 0)`), a target is included in the region's overlap window
exactly when `target.start + 1 < region.end` and
`target.end + 1 > region.start` under the partial-overlap policy, and
exactly when `region.start ≤ target.start + 1` and
`target.end + 1 ≤ region.end` under the full-containment policy — the
source's `+1` boundary comparisons, not the claim's un-shifted ones. -/
theorem overlap_window_first_region_iff (allow_partial_overlap : Bool)
    (ts : List sgrna_target) (gene_start gene_end : Nat)
    (hstart : ts.Pairwise (fun a b => a.start ≤ b.start))
    (hend : ts.Pairwise (fun a b => a.end_ ≤ b.end_))
    (t : sgrna_target) :
    t ∈ overlap_window allow_partial_overlap gene_start gene_end ts (0, 0) ↔
      t ∈ ts ∧
        (if allow_partial_overlap then
          t.start + 1 < gene_end ∧ t.end_ + 1 > gene_start
        else
          gene_start ≤ t.start + 1 ∧ t.end_ + 1 ≤ gene_end) := by
  have hstart' := List.pairwise_iff_getElem.mp hstart
  have hend' := List.pairwise_iff_getElem.mp hend
  have hdc_back : ∀ (j k : Nat) (u v : sgrna_target), k ≤ j →
      ts[j]? = some u → ts[k]? = some v →
      back_condition allow_partial_overlap gene_start gene_end u = true →
      back_condition allow_partial_overlap gene_start gene_end v = true := by
    intro j k u v hkj hju hkv hcu
    obtain ⟨hj, hju'⟩ := List.getElem?_eq_some.mp hju
    obtain ⟨hk, hkv'⟩ := List.getElem?_eq_some.mp hkv
    unfold back_condition at hcu ⊢
    rcases Nat.eq_or_lt_of_le hkj with h1 | h1
    · subst h1
      rw [hju'] at hkv'
      rw [← hkv']
      exact hcu
    · have hs := hstart' k j hk hj h1
      have he := hend' k j hk hj h1
      rw [hju'] at hs he
      rw [hkv'] at hs he
      by_cases ha : allow_partial_overlap = true
      · rw [if_pos ha] at hcu ⊢
        simp only [decide_eq_true_eq] at hcu ⊢
        omega
      · rw [if_neg ha] at hcu ⊢
        simp only [decide_eq_true_eq] at hcu ⊢
        omega
  have hdc_front : ∀ (j k : Nat) (u v : sgrna_target), k ≤ j →
      ts[j]? = some u → ts[k]? = some v →
      front_condition allow_partial_overlap gene_start gene_end u = true →
      front_condition allow_partial_overlap gene_start gene_end v = true := by
    intro j k u v hkj hju hkv hcu
    obtain ⟨hj, hju'⟩ := List.getElem?_eq_some.mp hju
    obtain ⟨hk, hkv'⟩ := List.getElem?_eq_some.mp hkv
    unfold front_condition at hcu ⊢
    rcases Nat.eq_or_lt_of_le hkj with h1 | h1
    · subst h1
      rw [hju'] at hkv'
      rw [← hkv']
      exact hcu
    · have hs := hstart' k j hk hj h1
      have he := hend' k j hk hj h1
      rw [hju'] at hs he
      rw [hkv'] at hs he
      by_cases ha : allow_partial_overlap = true
      · rw [if_pos ha] at hcu ⊢
        simp only [decide_eq_true_eq] at hcu ⊢
        omega
      · rw [if_neg ha] at hcu ⊢
        simp only [decide_eq_true_eq] at hcu ⊢
        omega
  unfold overlap_window update_bounds
  simp only
  rw [mem_slice_iff]
  constructor
  · rintro ⟨j, hfj, hjb, hj⟩
    have hback := (advance_while_zero_lt_iff _ ts hdc_back j t hj).mp hjb
    have hfront : front_condition allow_partial_overlap gene_start gene_end t
        = false := by
      cases h : front_condition allow_partial_overlap gene_start gene_end t
      · rfl
      · have := (advance_while_zero_lt_iff _ ts hdc_front j t hj).mpr h
        omega
    refine ⟨List.mem_iff_getElem?.mpr ⟨j, hj⟩, ?_⟩
    unfold back_condition at hback
    unfold front_condition at hfront
    by_cases ha : allow_partial_overlap = true
    · rw [if_pos ha] at hback hfront ⊢
      simp only [decide_eq_true_eq] at hback
      simp only [decide_eq_false_iff_not] at hfront
      omega
    · rw [if_neg ha] at hback hfront ⊢
      simp only [decide_eq_true_eq] at hback
      simp only [decide_eq_false_iff_not] at hfront
      omega
  · rintro ⟨hmem, hcond⟩
    obtain ⟨j, hj⟩ := List.mem_iff_getElem?.mp hmem
    have hback : back_condition allow_partial_overlap gene_start gene_end t
        = true := by
      unfold back_condition
      by_cases ha : allow_partial_overlap = true
      · rw [if_pos ha] at hcond ⊢
        simp only [decide_eq_true_eq]
        omega
      · rw [if_neg ha] at hcond ⊢
        simp only [decide_eq_true_eq]
        omega
    have hfront : front_condition allow_partial_overlap gene_start gene_end t
        = false := by
      unfold front_condition
      by_cases ha : allow_partial_overlap = true
      · rw [if_pos ha] at hcond ⊢
        simp only [decide_eq_false_iff_not]
        omega
      · rw [if_neg ha] at hcond ⊢
        simp only [decide_eq_false_iff_not]
        omega
    refine ⟨j, ?_, ?_, hj⟩
    · by_contra hc
      have hlt : j < advance_while
          (front_condition allow_partial_overlap gene_start gene_end) ts 0
          ts.length := by omega
      have := (advance_while_zero_lt_iff _ ts hdc_front j t hj).mp hlt
      rw [hfront] at this
      exact absurd this (by simp)
    · exact (advance_while_zero_lt_iff _ ts hdc_back j t hj).mpr hback

/-- Witness for the amended C1 at a concrete one-target chromosome. -/
theorem overlap_window_first_region_iff_witness :
    c1T ∈ overlap_window true 0 10 [c1T] (0, 0) ↔
      c1T ∈ [c1T] ∧
        (if true then c1T.start + 1 < 10 ∧ c1T.end_ + 1 > 0
         else 0 ≤ c1T.start + 1 ∧ c1T.end_ + 1 ≤ 10) :=
  overlap_window_first_region_iff true [c1T] 0 10 (by decide) (by decide) c1T

/-- Counterexample to C1 as stated: target `[0, 5)` does not satisfy
`target.end > region.start` against region `[5, 10)` (adjacency), yet it
is included in the region's overlap window and emitted annotated,
because the source compares `target.end + 1 <= gene_start`. -/
theorem overlap_window_counterexample :
    c1T ∈ overlap_window true c1Region.start c1Region.end_ [c1T] (0, 0) ∧
    label_targets [(c1T.id_str, c1T)] [c1Region] [("c", 100)] true =
      some [annotate_copy c1Region c1T] ∧
    c1T.start < c1Region.end_ ∧ ¬ (c1T.end_ > c1Region.start) := by
  decide

theorem lookup_map_zero (chrom_lens : List (String × Nat)) (c : String) :
    List.lookup c (chrom_lens.map (fun p => (p.1, ((0 : Nat), (0 : Nat))))) =
      (List.lookup c chrom_lens).map (fun _ => ((0 : Nat), (0 : Nat))) := by
  induction chrom_lens with
  | nil => rfl
  | cons p ps ih =>
    simp only [List.map_cons, List.lookup]
    by_cases hc : (c == p.1) = true
    · rw [hc]
      rfl
    · rw [Bool.not_eq_true] at hc
      rw [hc]
      exact ih

theorem lookup_set_bound_isSome (bounds : List (String × (Nat × Nat)))
    (c ch : String) (v : Nat × Nat) :
    (List.lookup c (set_bound bounds ch v)).isSome =
      (List.lookup c bounds).isSome := by
  induction bounds with
  | nil => rfl
  | cons p ps ih =>
    unfold set_bound
    simp only [List.map_cons]
    by_cases hp : (p.1 == ch) = true
    · rw [if_pos hp]
      simp only [List.lookup]
      by_cases hc : (c == p.1) = true
      · rw [hc]
        rfl
      · rw [Bool.not_eq_true] at hc
        rw [hc]
        exact ih
    · rw [if_neg hp]
      simp only [List.lookup]
      by_cases hc : (c == p.1) = true
      · rw [hc]
      · rw [Bool.not_eq_true] at hc
        rw [hc]
        exact ih

theorem process_region_eq_none_bounds (allow_partial_overlap : Bool)
    (chrom_lens : List (String × Nat)) (cT : String → List sgrna_target)
    (st : LabelState) (r : Region)
    (hb : List.lookup r.chrom st.per_chrom_bounds = none) :
    process_region allow_partial_overlap chrom_lens cT st r = none := by
  unfold process_region
  rw [hb]

theorem process_region_eq_none_lens (allow_partial_overlap : Bool)
    (chrom_lens : List (String × Nat)) (cT : String → List sgrna_target)
    (st : LabelState) (r : Region) (fb : Nat × Nat)
    (hb : List.lookup r.chrom st.per_chrom_bounds = some fb)
    (hc : List.lookup r.chrom chrom_lens = none) :
    process_region allow_partial_overlap chrom_lens cT st r = none := by
  unfold process_region
  rw [hb, hc]

theorem process_region_eq_run (allow_partial_overlap : Bool)
    (chrom_lens : List (String × Nat)) (cT : String → List sgrna_target)
    (st : LabelState) (r : Region) (fb : Nat × Nat) (clen : Nat)
    (hb : List.lookup r.chrom st.per_chrom_bounds = some fb)
    (hc : List.lookup r.chrom chrom_lens = some clen) :
    process_region allow_partial_overlap chrom_lens cT st r =
      if r.start ≥ clen then some st
      else some
        { anno_targets := st.anno_targets ++
            (overlap_window allow_partial_overlap r.start r.end_ (cT r.chrom)
              fb).map (annotate_copy r),
          found := st.found ++
            (overlap_window allow_partial_overlap r.start r.end_ (cT r.chrom)
              fb).map sgrna_target.id_str,
          per_chrom_bounds := set_bound st.per_chrom_bounds r.chrom
            (update_bounds allow_partial_overlap r.start r.end_ (cT r.chrom)
              fb) } := by
  unfold process_region
  rw [hb, hc]

theorem process_region_none_iff (allow_partial_overlap : Bool)
    (chrom_lens : List (String × Nat)) (cT : String → List sgrna_target)
    (st : LabelState) (r : Region)
    (hbd : ∀ c, (List.lookup c st.per_chrom_bounds).isSome =
      (List.lookup c chrom_lens).isSome) :
    (process_region allow_partial_overlap chrom_lens cT st r = none ↔
      List.lookup r.chrom chrom_lens = none) := by
  cases hb : List.lookup r.chrom st.per_chrom_bounds with
  | none =>
    have h1 := hbd r.chrom
    rw [hb] at h1
    simp only [Option.isSome_none] at h1
    constructor
    · intro _
      exact Option.not_isSome_iff_eq_none.mp (by rw [← h1]; simp)
    · intro _
      exact process_region_eq_none_bounds _ _ _ _ _ hb
  | some fb =>
    cases hc : List.lookup r.chrom chrom_lens with
    | none =>
      have h1 := hbd r.chrom
      rw [hb, hc] at h1
      exact absurd h1 (by simp)
    | some clen =>
      rw [process_region_eq_run _ _ _ _ _ fb clen hb hc]
      constructor
      · intro h
        split at h <;> exact absurd h (by simp)
      · intro h
        exact absurd h (by simp)

theorem process_region_bounds_dom (allow_partial_overlap : Bool)
    (chrom_lens : List (String × Nat)) (cT : String → List sgrna_target)
    (st st' : LabelState) (r : Region)
    (h : process_region allow_partial_overlap chrom_lens cT st r = some st')
    (hbd : ∀ c, (List.lookup c st.per_chrom_bounds).isSome =
      (List.lookup c chrom_lens).isSome) :
    ∀ c, (List.lookup c st'.per_chrom_bounds).isSome =
      (List.lookup c chrom_lens).isSome := by
  cases hb : List.lookup r.chrom st.per_chrom_bounds with
  | none =>
    rw [process_region_eq_none_bounds _ _ _ _ _ hb] at h
    exact absurd h (by simp)
  | some fb =>
    cases hc : List.lookup r.chrom chrom_lens with
    | none =>
      rw [process_region_eq_none_lens _ _ _ _ _ fb hb hc] at h
      exact absurd h (by simp)
    | some clen =>
      rw [process_region_eq_run _ _ _ _ _ fb clen hb hc] at h
      split at h
      · rw [← Option.some.inj h]
        exact hbd
      · rw [← Option.some.inj h]
        intro c
        show (List.lookup c (set_bound st.per_chrom_bounds r.chrom
          (update_bounds allow_partial_overlap r.start r.end_ (cT r.chrom)
            fb))).isSome = (List.lookup c chrom_lens).isSome
        rw [lookup_set_bound_isSome]
        exact hbd c

theorem foldlM_label_none_iff (allow_partial_overlap : Bool)
    (chrom_lens : List (String × Nat)) (cT : String → List sgrna_target) :
    ∀ (regions : List Region) (st : LabelState),
      (∀ c, (List.lookup c st.per_chrom_bounds).isSome =
        (List.lookup c chrom_lens).isSome) →
      (regions.foldlM (process_region allow_partial_overlap chrom_lens cT) st
          = none ↔
        ∃ r ∈ regions, List.lookup r.chrom chrom_lens = none) := by
  intro regions
  induction regions with
  | nil =>
    intro st hbd
    constructor
    · intro h
      exact absurd h (by simp [List.foldlM])
    · rintro ⟨r, hr, _⟩
      exact absurd hr (List.not_mem_nil r)
  | cons r rs ih =>
    intro st hbd
    rw [List.foldlM_cons]
    cases hp : process_region allow_partial_overlap chrom_lens cT st r with
    | none =>
      constructor
      · intro _
        exact ⟨r, List.mem_cons_self r rs,
          (process_region_none_iff _ _ _ _ _ hbd).mp hp⟩
      · intro _
        rfl
    | some st1 =>
      have hbd1 := process_region_bounds_dom _ _ _ _ _ _ hp hbd
      have hr_ok : ¬ List.lookup r.chrom chrom_lens = none := by
        intro hn
        have h2 := (process_region_none_iff allow_partial_overlap chrom_lens
          cT st r hbd).mpr hn
        rw [hp] at h2
        exact absurd h2 (by simp)
      have hbind : (some st1 >>= fun st' =>
          rs.foldlM (process_region allow_partial_overlap chrom_lens cT) st')
          = rs.foldlM (process_region allow_partial_overlap chrom_lens cT) st1
          := rfl
      rw [hbind, ih st1 hbd1]
      constructor
      · rintro ⟨r', hr', hn⟩
        exact ⟨r', List.mem_cons_of_mem r hr', hn⟩
      · rintro ⟨r', hr', hn⟩
        rcases List.mem_cons.mp hr' with h1 | h1
        · subst h1
          exact absurd hn hr_ok
        · exact ⟨r', h1, hn⟩

/-- C3 (amended): a region whose chromosome is absent from `chrom_lens`
is fatal, not skipped: `label_targets` dies with a `KeyError` (embedded
as `none`) exactly when some region names a chromosome missing from
`chrom_lens`.  (The skip-and-continue behaviour applies only to regions
whose chromosome is present but whose start is at or past the
chromosome length.) -/
theorem label_targets_missing_chrom_fatal
    (targets : List (String × sgrna_target)) (target_regions : List Region)
    (chrom_lens : List (String × Nat)) (allow_partial_overlap : Bool) :
    label_targets targets target_regions chrom_lens allow_partial_overlap
        = none ↔
      ∃ r ∈ target_regions, List.lookup r.chrom chrom_lens = none := by
  have hbd : ∀ c, (List.lookup c
      (chrom_lens.map (fun p => (p.1, ((0 : Nat), (0 : Nat)))))).isSome =
      (List.lookup c chrom_lens).isSome := by
    intro c
    rw [lookup_map_zero]
    cases List.lookup c chrom_lens <;> rfl
  unfold label_targets
  simp only
  cases hf : target_regions.foldlM
      (process_region allow_partial_overlap chrom_lens
        (per_chrom_sorted_targets targets))
      { anno_targets := []
        found := []
        per_chrom_bounds :=
          chrom_lens.map (fun p => (p.1, ((0 : Nat), (0 : Nat)))) } with
  | none =>
    constructor
    · intro _
      exact (foldlM_label_none_iff allow_partial_overlap chrom_lens
        (per_chrom_sorted_targets targets) target_regions
        { anno_targets := []
          found := []
          per_chrom_bounds :=
            chrom_lens.map (fun p => (p.1, ((0 : Nat), (0 : Nat)))) }
        hbd).mp hf
    · intro _
      rfl
  | some st =>
    constructor
    · intro h
      exact absurd h (by simp)
    · intro hex
      have h2 := (foldlM_label_none_iff allow_partial_overlap chrom_lens
        (per_chrom_sorted_targets targets) target_regions
        { anno_targets := []
          found := []
          per_chrom_bounds :=
            chrom_lens.map (fun p => (p.1, ((0 : Nat), (0 : Nat)))) }
        hbd).mpr hex
      rw [hf] at h2
      exact absurd h2 (by simp)

/-- Counterexample to C3 as stated: with targets on chromosome `"c"` and
a region list whose first region names the unknown chromosome `"x"`,
`label_targets` aborts (uncaught `KeyError`) instead of skipping that
region; the same run without the bad region succeeds. -/
theorem label_targets_missing_chrom_counterexample :
    label_targets [(c3T.id_str, c3T)]
      [{ gene := "g1", chrom := "x", start := 0, end_ := 10, strand := '+' },
       { gene := "g2", chrom := "c", start := 0, end_ := 50, strand := '+' }]
      [("c", 100)] true = none ∧
    (label_targets [(c3T.id_str, c3T)]
      [{ gene := "g2", chrom := "c", start := 0, end_ := 50, strand := '+' }]
      [("c", 100)] true).isSome = true := by
  decide

theorem annotate_copy_id_str (r : Region) (t : sgrna_target) :
    (annotate_copy r t).id_str = t.id_str := rfl

theorem annotate_copy_gene (r : Region) (t : sgrna_target) :
    (annotate_copy r t).gene = some r.gene := rfl

theorem overlap_window_subset (allow_partial_overlap : Bool)
    (gene_start gene_end : Nat) (ts : List sgrna_target) (fb : Nat × Nat)
    (x : sgrna_target)
    (h : x ∈ overlap_window allow_partial_overlap gene_start gene_end ts fb) :
    x ∈ ts := by
  unfold overlap_window at h
  exact List.drop_subset _ _ (List.take_subset _ _ h)

theorem process_region_anno (allow_partial_overlap : Bool)
    (chrom_lens : List (String × Nat)) (cT : String → List sgrna_target)
    (st st' : LabelState) (r : Region)
    (h : process_region allow_partial_overlap chrom_lens cT st r = some st') :
    ∃ w : List sgrna_target, (∀ x ∈ w, x ∈ cT r.chrom) ∧
      st'.anno_targets = st.anno_targets ++ w.map (annotate_copy r) ∧
      st'.found = st.found ++ w.map sgrna_target.id_str := by
  cases hb : List.lookup r.chrom st.per_chrom_bounds with
  | none =>
    rw [process_region_eq_none_bounds _ _ _ _ _ hb] at h
    exact absurd h (by simp)
  | some fb =>
    cases hc : List.lookup r.chrom chrom_lens with
    | none =>
      rw [process_region_eq_none_lens _ _ _ _ _ fb hb hc] at h
      exact absurd h (by simp)
    | some clen =>
      rw [process_region_eq_run _ _ _ _ _ fb clen hb hc] at h
      split at h
      · refine ⟨[], by simp, ?_, ?_⟩ <;> rw [← Option.some.inj h] <;> simp
      · refine ⟨overlap_window allow_partial_overlap r.start r.end_
          (cT r.chrom) fb, ?_, ?_, ?_⟩
        · intro x hx
          exact overlap_window_subset _ _ _ _ _ x hx
        · rw [← Option.some.inj h]
        · rw [← Option.some.inj h]

theorem foldlM_anno_mono (allow_partial_overlap : Bool)
    (chrom_lens : List (String × Nat)) (cT : String → List sgrna_target) :
    ∀ (regions : List Region) (st st' : LabelState),
      regions.foldlM (process_region allow_partial_overlap chrom_lens cT) st
        = some st' →
      ∀ x ∈ st.anno_targets, x ∈ st'.anno_targets := by
  intro regions
  induction regions with
  | nil =>
    intro st st' h x hx
    have h2 : some st = some st' := h
    rw [← Option.some.inj h2]
    exact hx
  | cons r rs ih =>
    intro st st' h x hx
    rw [List.foldlM_cons] at h
    cases hp : process_region allow_partial_overlap chrom_lens cT st r with
    | none =>
      rw [hp] at h
      exact absurd h (by simp)
    | some st1 =>
      rw [hp] at h
      obtain ⟨w, _, hanno, _⟩ := process_region_anno _ _ _ _ _ _ hp
      exact ih st1 st' h x (by rw [hanno]; exact List.mem_append_left _ hx)

theorem foldlM_anno_provenance (allow_partial_overlap : Bool)
    (chrom_lens : List (String × Nat)) (cT : String → List sgrna_target) :
    ∀ (regions : List Region) (st st' : LabelState),
      regions.foldlM (process_region allow_partial_overlap chrom_lens cT) st
        = some st' →
      ∀ x ∈ st'.anno_targets, x ∈ st.anno_targets ∨
        ∃ r ∈ regions, ∃ t : sgrna_target, t ∈ cT r.chrom ∧
          x = annotate_copy r t := by
  intro regions
  induction regions with
  | nil =>
    intro st st' h x hx
    have h2 : some st = some st' := h
    rw [Option.some.inj h2]
    exact Or.inl hx
  | cons r rs ih =>
    intro st st' h x hx
    rw [List.foldlM_cons] at h
    cases hp : process_region allow_partial_overlap chrom_lens cT st r with
    | none =>
      rw [hp] at h
      exact absurd h (by simp)
    | some st1 =>
      rw [hp] at h
      rcases ih st1 st' h x hx with h1 | h1
      · obtain ⟨w, hw, hanno, _⟩ := process_region_anno _ _ _ _ _ _ hp
        rw [hanno] at h1
        rcases List.mem_append.mp h1 with h2 | h2
        · exact Or.inl h2
        · obtain ⟨t, ht, hxt⟩ := List.mem_map.mp h2
          exact Or.inr ⟨r, List.mem_cons_self r rs, t, hw t ht, hxt.symm⟩
      · obtain ⟨r', hr', t, ht, hxt⟩ := h1
        exact Or.inr ⟨r', List.mem_cons_of_mem r hr', t, ht, hxt⟩

theorem label_targets_some_elim (targets : List (String × sgrna_target))
    (target_regions : List Region) (chrom_lens : List (String × Nat))
    (allow_partial_overlap : Bool) (out : List sgrna_target)
    (hrun : label_targets targets target_regions chrom_lens
      allow_partial_overlap = some out) :
    ∃ st : LabelState,
      target_regions.foldlM (process_region allow_partial_overlap chrom_lens
          (per_chrom_sorted_targets targets))
        { anno_targets := []
          found := []
          per_chrom_bounds :=
            chrom_lens.map (fun p => (p.1, ((0 : Nat), (0 : Nat)))) }
        = some st ∧
      out = st.anno_targets ++
        (targets.filter (fun p => !(st.found.contains p.1))).map Prod.snd := by
  have hrun2 : (match target_regions.foldlM
      (process_region allow_partial_overlap chrom_lens
        (per_chrom_sorted_targets targets))
      { anno_targets := []
        found := []
        per_chrom_bounds :=
          chrom_lens.map (fun p => (p.1, ((0 : Nat), (0 : Nat)))) } with
    | none => (none : Option (List sgrna_target))
    | some st => some (st.anno_targets ++
        (targets.filter (fun p => !(st.found.contains p.1))).map Prod.snd))
      = some out := hrun
  cases hf : target_regions.foldlM
      (process_region allow_partial_overlap chrom_lens
        (per_chrom_sorted_targets targets))
      { anno_targets := []
        found := []
        per_chrom_bounds :=
          chrom_lens.map (fun p => (p.1, ((0 : Nat), (0 : Nat)))) } with
  | none =>
    rw [hf] at hrun2
    exact absurd hrun2 (by simp)
  | some st =>
    rw [hf] at hrun2
    refine ⟨st, rfl, ?_⟩
    exact (Option.some.inj hrun2).symm

/-- C7: every annotated record `label_targets` emits comes from some
`(region, target)` pair and carries
`offset = region.end - target.end` for a reverse-strand gene and
`target.start - region.start` otherwise, and
`sense_strand = (region.strand == '-') == target.reverse`. -/
theorem label_targets_offset_sense (targets : List (String × sgrna_target))
    (target_regions : List Region) (chrom_lens : List (String × Nat))
    (allow_partial_overlap : Bool)
    (hclean : ∀ p ∈ targets, p.2.gene = none)
    (out : List sgrna_target)
    (hrun : label_targets targets target_regions chrom_lens
      allow_partial_overlap = some out) :
    ∀ a ∈ out, a.gene.isSome = true →
      ∃ r ∈ target_regions, ∃ t : sgrna_target,
        (∃ p ∈ targets, p.2 = t) ∧ a = annotate_copy r t ∧
        a.offset = some (if r.strand == '-' then
          (r.end_ : Int) - (t.end_ : Int)
        else (t.start : Int) - (r.start : Int)) ∧
        a.sense_strand = some ((r.strand == '-') == t.reverse) := by
  obtain ⟨st, hf, hout⟩ := label_targets_some_elim _ _ _ _ _ hrun
  intro a ha hgene
  rw [hout] at ha
  rcases List.mem_append.mp ha with h1 | h1
  · have hprov := foldlM_anno_provenance _ _ _ target_regions _ _ hf a h1
    rcases hprov with h2 | h2
    · exact absurd h2 (List.not_mem_nil a)
    · obtain ⟨r, hr, t, ht, hat⟩ := h2
      obtain ⟨p, hp, hpt, _⟩ := per_chrom_sorted_targets_mem targets r.chrom t ht
      refine ⟨r, hr, t, ⟨p, hp, hpt⟩, hat, ?_, ?_⟩
      · rw [hat]
        rfl
      · rw [hat]
        rfl
  · obtain ⟨p, hp, hpa⟩ := List.mem_map.mp h1
    have hpin := (List.mem_filter.mp hp).1
    have : a.gene = none := by
      rw [← hpa]
      exact hclean p hpin
    rw [this] at hgene
    exact absurd hgene (by simp)

/-- Witness for C7: the spec's offset and sense-strand examples, from an
actual `label_targets` run of gene `(100, 200, '+')` over target
`(110, 130)`: offset 10 on the forward-strand gene, offset 70 on the
reverse-strand gene, and `sense_strand` true exactly for the
reverse-strand gene when `target.reverse = true`. -/
theorem label_targets_offset_sense_witness :
    (∃ r ∈ [c7RegionPlus], ∃ t : sgrna_target,
      (∃ p ∈ [(c7T.id_str, c7T), (c8T.id_str, c8T)], p.2 = t) ∧
      annotate_copy c7RegionPlus c7T = annotate_copy r t ∧
      (annotate_copy c7RegionPlus c7T).offset = some (if r.strand == '-' then
        (r.end_ : Int) - (t.end_ : Int)
      else (t.start : Int) - (r.start : Int)) ∧
      (annotate_copy c7RegionPlus c7T).sense_strand =
        some ((r.strand == '-') == t.reverse)) ∧
    (annotate_copy c7RegionPlus c7T).offset = some 10 ∧
    (annotate_copy c7RegionMinus c7T).offset = some 70 ∧
    (annotate_copy c7RegionMinus c7T).sense_strand = some true ∧
    (annotate_copy c7RegionPlus c7T).sense_strand = some false :=
  ⟨label_targets_offset_sense [(c7T.id_str, c7T), (c8T.id_str, c8T)]
      [c7RegionPlus] [("c", 1000)] true (by decide)
      [annotate_copy c7RegionPlus c7T, c8T] (by decide)
      (annotate_copy c7RegionPlus c7T) (by decide) (by decide),
   by decide, by decide, by decide, by decide⟩

theorem foldlM_found_anno_inv (allow_partial_overlap : Bool)
    (chrom_lens : List (String × Nat)) (cT : String → List sgrna_target) :
    ∀ (regions : List Region) (st st' : LabelState),
      regions.foldlM (process_region allow_partial_overlap chrom_lens cT) st
        = some st' →
      st.found = st.anno_targets.map sgrna_target.id_str →
      (∀ x ∈ st.anno_targets, x.gene.isSome = true) →
      st'.found = st'.anno_targets.map sgrna_target.id_str ∧
        (∀ x ∈ st'.anno_targets, x.gene.isSome = true) := by
  intro regions
  induction regions with
  | nil =>
    intro st st' h hfound hgene
    have h2 : some st = some st' := h
    rw [← Option.some.inj h2]
    exact ⟨hfound, hgene⟩
  | cons r rs ih =>
    intro st st' h hfound hgene
    rw [List.foldlM_cons] at h
    cases hp : process_region allow_partial_overlap chrom_lens cT st r with
    | none =>
      rw [hp] at h
      exact absurd h (by simp)
    | some st1 =>
      rw [hp] at h
      obtain ⟨w, hw, hanno, hfnd⟩ := process_region_anno _ _ _ _ _ _ hp
      refine ih st1 st' h ?_ ?_
      · rw [hanno, hfnd, hfound, List.map_append, List.map_map]
        congr 1
      · intro x hx
        rw [hanno] at hx
        rcases List.mem_append.mp hx with h1 | h1
        · exact hgene x h1
        · obtain ⟨t, _, hxt⟩ := List.mem_map.mp h1
          rw [← hxt, annotate_copy_gene]
          rfl

/-- C8: for every input target, the output of `label_targets` holds
either exactly one unannotated copy and no annotated copy, or at least
one annotated copy and no unannotated copy — never both kinds, never
neither. -/
theorem label_targets_exactly_once (targets : List (String × sgrna_target))
    (target_regions : List Region) (chrom_lens : List (String × Nat))
    (allow_partial_overlap : Bool)
    (hkeys : (targets.map Prod.fst).Nodup)
    (hid : ∀ p ∈ targets, p.1 = p.2.id_str)
    (hclean : ∀ p ∈ targets, p.2.gene = none)
    (out : List sgrna_target)
    (hrun : label_targets targets target_regions chrom_lens
      allow_partial_overlap = some out) :
    ∀ p ∈ targets,
      (out.countP (fun a => a.id_str == p.1 && a.gene.isNone) = 1 ∧
       out.countP (fun a => a.id_str == p.1 && a.gene.isSome) = 0) ∨
      (out.countP (fun a => a.id_str == p.1 && a.gene.isNone) = 0 ∧
       1 ≤ out.countP (fun a => a.id_str == p.1 && a.gene.isSome)) := by
  obtain ⟨st, hf, hout⟩ := label_targets_some_elim _ _ _ _ _ hrun
  obtain ⟨hfound, hgene⟩ := foldlM_found_anno_inv _ _ _ target_regions _ _ hf
    rfl (by intro x hx; exact absurd hx (List.not_mem_nil x))
  intro p hp
  rw [hout, List.countP_append, List.countP_append]
  have hU1 : st.anno_targets.countP
      (fun a => a.id_str == p.1 && a.gene.isNone) = 0 := by
    rw [List.countP_eq_zero]
    intro a ha
    have hg := hgene a ha
    cases hga : a.gene with
    | none => rw [hga] at hg; exact absurd hg (by simp)
    | some g => simp [hga]
  have hA2 : ((targets.filter
      (fun q => !(st.found.contains q.1))).map Prod.snd).countP
      (fun a => a.id_str == p.1 && a.gene.isSome) = 0 := by
    rw [List.countP_map, List.countP_eq_zero]
    intro q hq
    have hq2 := (List.mem_filter.mp hq).1
    have hg := hclean q hq2
    simp [Function.comp, hg]
  have hA1 : st.anno_targets.countP
      (fun a => a.id_str == p.1 && a.gene.isSome) =
      st.anno_targets.countP (fun a => a.id_str == p.1) := by
    apply List.countP_congr
    intro a ha
    have hg := hgene a ha
    simp [hg]
  have hAfound : p.1 ∈ st.found ↔
      0 < st.anno_targets.countP (fun a => a.id_str == p.1) := by
    rw [hfound, List.countP_pos_iff]
    constructor
    · intro h
      obtain ⟨a, ha, hai⟩ := List.mem_map.mp h
      exact ⟨a, ha, by simp [hai]⟩
    · rintro ⟨a, ha, hai⟩
      apply List.mem_map.mpr
      exact ⟨a, ha, by simpa using hai⟩
  have hU2 : ((targets.filter
      (fun q => !(st.found.contains q.1))).map Prod.snd).countP
      (fun a => a.id_str == p.1 && a.gene.isNone) =
      targets.countP (fun q => q.1 == p.1 && !(st.found.contains q.1)) := by
    rw [List.countP_map, List.countP_filter]
    apply List.countP_congr
    intro q hq
    have hg := hclean q hq
    have hi := hid q hq
    simp only [Function.comp, hg, Option.isNone_none, Bool.and_true, ← hi]
  by_cases hkf : p.1 ∈ st.found
  · right
    constructor
    · rw [hU1, hU2]
      simp only [Nat.zero_add]
      rw [List.countP_eq_zero]
      intro q hq
      by_cases hq1 : (q.1 == p.1) = true
      · have hqp : q.1 = p.1 := by simpa using hq1
        have hct : st.found.contains q.1 = true := by
          rw [hqp]
          exact List.elem_iff.mpr hkf
        intro hcontra
        rw [Bool.and_eq_true] at hcontra
        have h2 := hcontra.2
        rw [hct] at h2
        exact absurd h2 (by decide)
      · intro hcontra
        rw [Bool.and_eq_true] at hcontra
        exact hq1 hcontra.1
    · rw [hA1, hA2]
      have := hAfound.mp hkf
      omega
  · left
    constructor
    · rw [hU1, hU2]
      simp only [Nat.zero_add]
      have hcongr : targets.countP
          (fun q => q.1 == p.1 && !(st.found.contains q.1)) =
          targets.countP (fun q => q.1 == p.1) := by
        apply List.countP_congr
        intro q hq
        by_cases hq1 : (q.1 == p.1) = true
        · have hqp : q.1 = p.1 := by simpa using hq1
          have hcf : st.found.contains q.1 = false := by
            rw [hqp]
            cases hcc : st.found.contains p.1 with
            | false => rfl
            | true => exact absurd (List.elem_iff.mp hcc) hkf
          constructor
          · intro _
            exact hq1
          · intro _
            rw [Bool.and_eq_true]
            refine ⟨hq1, ?_⟩
            rw [hcf]
            decide
        · constructor
          · intro h
            rw [Bool.and_eq_true] at h
            exact absurd h.1 hq1
          · intro h
            exact absurd h hq1
      rw [hcongr]
      have hcnt : targets.countP (fun q => q.1 == p.1) =
          (targets.map Prod.fst).count p.1 := by
        rw [List.count, List.countP_map]
        rfl
      rw [hcnt]
      exact List.count_eq_one_of_mem hkeys (List.mem_map_of_mem Prod.fst hp)
    · rw [hA1, hA2]
      have h0 : ¬ 0 < st.anno_targets.countP (fun a => a.id_str == p.1) :=
        fun hpos => hkf (hAfound.mpr hpos)
      omega

/-- Witness for C8 at a concrete run: the overlapped target gets only
annotated copies, the far-away target exactly one unannotated copy. -/
theorem label_targets_exactly_once_witness :
    (([annotate_copy c7RegionPlus c7T, c8T].countP
        (fun a => a.id_str == c7T.id_str && a.gene.isNone) = 1 ∧
      [annotate_copy c7RegionPlus c7T, c8T].countP
        (fun a => a.id_str == c7T.id_str && a.gene.isSome) = 0) ∨
     ([annotate_copy c7RegionPlus c7T, c8T].countP
        (fun a => a.id_str == c7T.id_str && a.gene.isNone) = 0 ∧
      1 ≤ [annotate_copy c7RegionPlus c7T, c8T].countP
        (fun a => a.id_str == c7T.id_str && a.gene.isSome))) :=
  label_targets_exactly_once [(c7T.id_str, c7T), (c8T.id_str, c8T)]
    [c7RegionPlus] [("c", 1000)] true (by decide) (by decide) (by decide)
    [annotate_copy c7RegionPlus c7T, c8T] (by decide)
    (c7T.id_str, c7T) (by decide)

theorem lookup_set_bound_self (bounds : List (String × (Nat × Nat)))
    (ch : String) (v fb0 : Nat × Nat)
    (h : List.lookup ch bounds = some fb0) :
    List.lookup ch (set_bound bounds ch v) = some v := by
  induction bounds with
  | nil => exact absurd h (by simp)
  | cons p ps ih =>
    unfold set_bound
    simp only [List.map_cons]
    by_cases hp : (p.1 == ch) = true
    · rw [if_pos hp]
      have hpe : p.1 = ch := by simpa using hp
      simp only [List.lookup]
      rw [show (ch == p.1) = true by simp [hpe]]
    · rw [if_neg hp]
      have hpe : ¬ p.1 = ch := by simpa using hp
      have hch : (ch == p.1) = false := by
        simp only [beq_eq_false_iff_ne, ne_eq]
        intro hc
        exact hpe hc.symm
      simp only [List.lookup] at h ⊢
      rw [hch] at h ⊢
      exact ih h

theorem lookup_set_bound_ne (bounds : List (String × (Nat × Nat)))
    (c ch : String) (v : Nat × Nat) (hne : ¬ c = ch) :
    List.lookup c (set_bound bounds ch v) = List.lookup c bounds := by
  induction bounds with
  | nil => rfl
  | cons p ps ih =>
    unfold set_bound
    simp only [List.map_cons]
    by_cases hp : (p.1 == ch) = true
    · rw [if_pos hp]
      have hpe : p.1 = ch := by simpa using hp
      have hcp : (c == p.1) = false := by
        simp only [beq_eq_false_iff_ne, ne_eq]
        rw [hpe]
        exact hne
      simp only [List.lookup]
      rw [hcp]
      exact ih
    · rw [if_neg hp]
      simp only [List.lookup]
      by_cases hc : (c == p.1) = true
      · rw [hc]
      · rw [Bool.not_eq_true] at hc
        rw [hc]
        exact ih

theorem front_inv_init (chrom_lens : List (String × Nat))
    (cT : String → List sgrna_target) :
    FrontInv cT
      { anno_targets := []
        found := []
        per_chrom_bounds :=
          chrom_lens.map (fun p => (p.1, ((0 : Nat), (0 : Nat)))) } [] := by
  intro c fb hlk
  simp only at hlk
  rw [lookup_map_zero] at hlk
  cases h : List.lookup c chrom_lens with
  | none =>
    rw [h] at hlk
    exact absurd hlk (by simp)
  | some clen =>
    rw [h] at hlk
    have : fb = ((0 : Nat), (0 : Nat)) := (Option.some.inj hlk).symm
    rw [this]
    exact ⟨Nat.zero_le _, Nat.zero_le _, fun j hj => absurd hj (by omega)⟩

theorem front_inv_weaken (cT : String → List sgrna_target) (st : LabelState)
    (seen : List Region) (r : Region) (h : FrontInv cT st seen) :
    FrontInv cT st (seen ++ [r]) := by
  intro c fb hlk
  obtain ⟨h1, h2, h3⟩ := h c fb hlk
  refine ⟨h1, h2, fun j hj t hjt => ?_⟩
  obtain ⟨r', hr', hc, he⟩ := h3 j hj t hjt
  exact ⟨r', List.mem_append_left _ hr', hc, he⟩

theorem process_region_front_inv (chrom_lens : List (String × Nat))
    (cT : String → List sgrna_target) (st st' : LabelState) (r : Region)
    (seen : List Region)
    (h : process_region true chrom_lens cT st r = some st')
    (hinv : FrontInv cT st seen) :
    FrontInv cT st' (seen ++ [r]) := by
  cases hb : List.lookup r.chrom st.per_chrom_bounds with
  | none =>
    rw [process_region_eq_none_bounds _ _ _ _ _ hb] at h
    exact absurd h (by simp)
  | some fb =>
    cases hc : List.lookup r.chrom chrom_lens with
    | none =>
      rw [process_region_eq_none_lens _ _ _ _ _ fb hb hc] at h
      exact absurd h (by simp)
    | some clen =>
      rw [process_region_eq_run _ _ _ _ _ fb clen hb hc] at h
      split at h
      · rw [← Option.some.inj h]
        exact front_inv_weaken cT st seen r hinv
      · rw [← Option.some.inj h]
        intro c fb2 hlk
        simp only at hlk
        obtain ⟨hf0, hb0, hinv0⟩ := hinv r.chrom fb hb
        by_cases hcr : c = r.chrom
        · rw [hcr] at hlk ⊢
          rw [lookup_set_bound_self st.per_chrom_bounds r.chrom _ fb hb] at hlk
          rw [← Option.some.inj hlk]
          unfold update_bounds
          refine ⟨advance_while_le_length _ _ _ _ hf0,
            advance_while_le_length _ _ _ _ hb0, ?_⟩
          intro j hj t hjt
          by_cases hjf : j < fb.1
          · obtain ⟨r', hr', hrc, hre⟩ := hinv0 j hjf t hjt
            exact ⟨r', List.mem_append_left _ hr', hrc, hre⟩
          · have hpass := advance_while_passed
              (front_condition true r.start r.end_) (cT r.chrom)
              (cT r.chrom).length fb.1 j (by omega) hj
            obtain ⟨t', hjt', hct'⟩ := hpass
            rw [hjt] at hjt'
            rw [← Option.some.inj hjt'] at hct'
            unfold front_condition at hct'
            rw [if_pos rfl] at hct'
            refine ⟨r, List.mem_append_right _ (List.mem_singleton.mpr rfl),
              rfl, ?_⟩
            exact of_decide_eq_true hct'
        · rw [lookup_set_bound_ne st.per_chrom_bounds c r.chrom _ hcr] at hlk
          obtain ⟨h1, h2, h3⟩ := hinv c fb2 hlk
          refine ⟨h1, h2, fun j hj t hjt => ?_⟩
          obtain ⟨r', hr', hrc, hre⟩ := h3 j hj t hjt
          exact ⟨r', List.mem_append_left _ hr', hrc, hre⟩

theorem mem_overlap_window_of (ts : List sgrna_target)
    (gene_start gene_end : Nat) (fb : Nat × Nat)
    (hsort : ts.Pairwise (fun a b => a.start ≤ b.start))
    (hf0 : fb.1 ≤ ts.length) (hb0 : fb.2 ≤ ts.length)
    (j : Nat) (t : sgrna_target) (hjt : ts[j]? = some t)
    (hov1 : t.start + 1 < gene_end) (hov2 : gene_start < t.end_ + 1)
    (hfront : ∀ k, k < fb.1 → ∀ u : sgrna_target, ts[k]? = some u →
      u.end_ + 1 ≤ gene_start) :
    t ∈ overlap_window true gene_start gene_end ts fb := by
  obtain ⟨hjlen, hjeq⟩ := List.getElem?_eq_some.mp hjt
  unfold overlap_window update_bounds
  simp only
  rw [mem_slice_iff]
  refine ⟨j, ?_, ?_, hjt⟩
  · by_contra hc
    have hc2 : j < advance_while (front_condition true gene_start gene_end)
        ts fb.1 ts.length := by omega
    by_cases hjf : j < fb.1
    · have := hfront j hjf t hjt
      omega
    · obtain ⟨t', hjt', hct'⟩ := advance_while_passed
        (front_condition true gene_start gene_end) ts ts.length fb.1 j
        (by omega) hc2
      rw [hjt] at hjt'
      rw [← Option.some.inj hjt'] at hct'
      unfold front_condition at hct'
      rw [if_pos rfl] at hct'
      have := of_decide_eq_true hct'
      omega
  · by_cases hjb : j < fb.2
    · exact lt_of_lt_of_le hjb (advance_while_ge _ _ _ _)
    · apply advance_while_reach _ _ ts.length fb.2 j (by omega) (by omega)
      intro k hk1 hk2
      have hklen : k < ts.length := by omega
      refine ⟨ts[k], List.getElem?_eq_getElem hklen, ?_⟩
      unfold back_condition
      rw [if_pos rfl]
      apply decide_eq_true
      have hsk : (ts[k]).start ≤ t.start := by
        rcases Nat.eq_or_lt_of_le hk2 with h1 | h1
        · rw [show ts[k] = t by rw [← hjeq]; congr 1]
      -- placeholder
        · have h2 := (List.pairwise_iff_getElem.mp hsort) k j hklen hjlen h1
          rw [hjeq] at h2
          exact h2
      omega

theorem foldlM_sweep_complete (chrom_lens : List (String × Nat))
    (cT : String → List sgrna_target)
    (hsortcT : ∀ c, (cT c).Pairwise (fun a b => a.start ≤ b.start)) :
    ∀ (regions : List Region) (st st' : LabelState) (seen : List Region),
      regions.foldlM (process_region true chrom_lens cT) st = some st' →
      FrontInv cT st seen →
      (∀ r1 ∈ seen, ∀ r2 ∈ regions, r1.chrom = r2.chrom →
        r1.start ≤ r2.start) →
      regions.Pairwise (fun a b => a.chrom = b.chrom → a.start ≤ b.start) →
      ∀ r ∈ regions, ∀ clen, List.lookup r.chrom chrom_lens = some clen →
        r.start < clen →
      ∀ (j : Nat) (t : sgrna_target), (cT r.chrom)[j]? = some t →
        t.start + 1 < r.end_ → r.start < t.end_ + 1 →
        annotate_copy r t ∈ st'.anno_targets := by
  intro regions
  induction regions with
  | nil =>
    intro st st' seen hfold hinv hseen hpair r hr
    exact absurd hr (List.not_mem_nil r)
  | cons r0 rs ih =>
    intro st st' seen hfold hinv hseen hpair r hr clen hclen hskip j t hjt
      hov1 hov2
    rw [List.foldlM_cons] at hfold
    cases hp : process_region true chrom_lens cT st r0 with
    | none =>
      rw [hp] at hfold
      exact absurd hfold (by simp)
    | some st1 =>
      rw [hp] at hfold
      have hinv1 : FrontInv cT st1 (seen ++ [r0]) :=
        process_region_front_inv chrom_lens cT st st1 r0 seen hp hinv
      have hseen1 : ∀ r1 ∈ seen ++ [r0], ∀ r2 ∈ rs, r1.chrom = r2.chrom →
          r1.start ≤ r2.start := by
        intro r1 hr1 r2 hr2 hcc
        rcases List.mem_append.mp hr1 with h1 | h1
        · exact hseen r1 h1 r2 (List.mem_cons_of_mem r0 hr2) hcc
        · rw [List.mem_singleton.mp h1]
          rw [List.mem_singleton.mp h1] at hcc
          exact (List.pairwise_cons.mp hpair).1 r2 hr2 hcc
      rcases List.mem_cons.mp hr with hr0 | hrs
      · subst hr0
        cases hb : List.lookup r.chrom st.per_chrom_bounds with
        | none =>
          rw [process_region_eq_none_bounds _ _ _ _ _ hb] at hp
          exact absurd hp (by simp)
        | some fb =>
          rw [process_region_eq_run _ _ _ _ _ fb clen hb hclen] at hp
          rw [if_neg (by omega)] at hp
          obtain ⟨hf0, hb0, hinvf⟩ := hinv r.chrom fb hb
          have hwin : t ∈ overlap_window true r.start r.end_ (cT r.chrom)
              fb := by
            apply mem_overlap_window_of (cT r.chrom) r.start r.end_ fb
              (hsortcT r.chrom) hf0 hb0 j t hjt hov1 hov2
            intro k hk u hku
            obtain ⟨r', hr', hrc, hre⟩ := hinvf k hk u hku
            have := hseen r' hr' r (List.mem_cons_self r rs) hrc
            omega
          have hmem1 : annotate_copy r t ∈ st1.anno_targets := by
            rw [← Option.some.inj hp]
            exact List.mem_append_right _ (List.mem_map_of_mem _ hwin)
          exact foldlM_anno_mono true chrom_lens cT rs st1 st' hfold
            (annotate_copy r t) hmem1
      · exact ih st1 st' (seen ++ [r0]) hfold hinv1 hseen1
          (List.pairwise_cons.mp hpair).2 r hrs clen hclen hskip j t hjt
          hov1 hov2

/-- C2 (amended): with `allow_partial_overlap = true` and the regions
sorted per chromosome by ascending start, every target that overlaps a
processed region under the source's boundary comparisons
(`target.start + 1 < region.end` and `target.end + 1 > region.start`) is
emitted as an annotated copy for that region — the persisted cursors
never *miss* an overlapping target.  (The converse direction of the
original claim is false: the window may also admit non-overlapping
targets, see the counterexample.) -/
theorem label_targets_sweep_completeness
    (targets : List (String × sgrna_target)) (target_regions : List Region)
    (chrom_lens : List (String × Nat))
    (hsorted : target_regions.Pairwise
      (fun a b => a.chrom = b.chrom → a.start ≤ b.start))
    (out : List sgrna_target)
    (hrun : label_targets targets target_regions chrom_lens true = some out)
    (r : Region) (hr : r ∈ target_regions)
    (clen : Nat) (hclen : List.lookup r.chrom chrom_lens = some clen)
    (hskip : r.start < clen)
    (t : sgrna_target) (ht : t ∈ per_chrom_sorted_targets targets r.chrom)
    (hov1 : t.start + 1 < r.end_) (hov2 : r.start < t.end_ + 1) :
    annotate_copy r t ∈ out := by
  obtain ⟨st, hf, hout⟩ := label_targets_some_elim _ _ _ _ _ hrun
  obtain ⟨j, hjt⟩ := List.mem_iff_getElem?.mp ht
  have hmem := foldlM_sweep_complete chrom_lens
    (per_chrom_sorted_targets targets)
    (per_chrom_sorted_targets_start_mono targets)
    target_regions _ st [] hf
    (front_inv_init chrom_lens (per_chrom_sorted_targets targets))
    (by intro r1 hr1; exact absurd hr1 (List.not_mem_nil r1))
    hsorted r hr clen hclen hskip j t hjt hov1 hov2
  rw [hout]
  exact List.mem_append_left _ hmem

/-- Witness for the amended C2: the long target `[0, 100)` genuinely
overlaps region `[50, 200)` and is emitted annotated. -/
theorem label_targets_sweep_completeness_witness :
    annotate_copy c2Region c2T1 ∈
      [annotate_copy c2Region c2T1, annotate_copy c2Region c2T2] :=
  label_targets_sweep_completeness
    [(c2T1.id_str, c2T1), (c2T2.id_str, c2T2)] [c2Region] [("c", 1000)]
    (by decide)
    [annotate_copy c2Region c2T1, annotate_copy c2Region c2T2] (by decide)
    c2Region (by decide) 1000 (by decide) (by decide)
    c2T1 (by decide) (by decide) (by decide)

/-- Counterexample to C2 as stated: with a single (hence trivially
sorted) region `[50, 200)` and targets `[0, 100)` and `[5, 8)`, the
short target ends before the region starts — it overlaps neither under
the claim's predicate (`target.end > region.start`) nor under the
source's (`target.end + 1 > region.start`) — yet the persisted-cursor
window admits it and `label_targets` emits it annotated with the
region's gene. -/
theorem label_targets_sweep_counterexample :
    label_targets [(c2T1.id_str, c2T1), (c2T2.id_str, c2T2)] [c2Region]
      [("c", 1000)] true =
      some [annotate_copy c2Region c2T1, annotate_copy c2Region c2T2] ∧
    ¬ (c2T2.end_ + 1 > c2Region.start) ∧ ¬ (c2T2.end_ > c2Region.start) := by
  decide
